import Mathlib

/-!
Verification of an elliptic-curve arithmetic library: point addition and
scalar multiplication over prime fields and binary (characteristic-2)
polynomial fields, with curve-membership testing, point-order search and
exhaustive point enumeration.

The embedding follows the source closely: the generic group-law engine
(`Curve.add`, `Curve.mul`) dispatches to per-variant coefficient
strategies packaged in a `CurveOps` record; fallible operations return
`Except CurveErr`.  The finite-field collaborators are external to the
repository and are modelled from the specification's field capability
contract.
-/

deriving instance DecidableEq for Except

namespace EC

/-- The error kinds of the library: the internal point-at-infinity signal,
the calculation error for unreachable strategy cases, the two
`point_order` argument errors, the order-search failure, and the field's
non-invertible-element error. -/
inductive CurveErr where
  | infinitePoint
  | calculationError
  | notOnCurve
  | incorrectOrder
  | nonInvertible
  deriving DecidableEq, Repr

/-- An affine point with optional coordinates; the point at infinity is
the point with both coordinates absent. -/
structure Point (T : Type) where
  x : Option T
  y : Option T
  deriving DecidableEq, Repr

/-- The identity point: both coordinates absent. -/
def Point.infinity {T : Type} : Point T := ⟨none, none⟩

/-- A point is infinite iff both coordinates are absent. -/
def Point.is_infinite {T : Type} (P : Point T) : Bool :=
  P.x.isNone && P.y.isNone

/-- The four operations a curve variant supplies to the generic engine:
three case coefficient strategies, the additive-point formula, and the
field's element normalization. -/
structure CurveOps (T : Type) where
  first_case : Point T → Point T → Except CurveErr T
  second_case : Point T → Point T → Except CurveErr T
  third_case : Point T → Point T → Except CurveErr T
  additive_point : Point T → Point T → T → Point T
  normalize : T → T

/-- Generic point addition: infinity short-circuits, then the three-way
case dispatch; the `infinitePoint` signal from a strategy is caught and
converted to the identity, every other error propagates; on success the
coefficient is normalized and the additive formula's coordinates are
normalized before returning. -/
def Curve.add {T : Type} [DecidableEq T] (C : CurveOps T) (P Q : Point T) :
    Except CurveErr (Point T) :=
  if P.is_infinite then .ok Q
  else if Q.is_infinite then .ok P
  else
    match (if P.x ≠ Q.x then C.first_case P Q
           else if P.x = Q.x ∧ P.y ≠ Q.y then C.second_case P Q
           else C.third_case P Q) with
    | .error .infinitePoint => .ok Point.infinity
    | .error e => .error e
    | .ok k =>
        let k' := C.normalize k
        let R := C.additive_point P Q k'
        .ok ⟨R.x.map C.normalize, R.y.map C.normalize⟩

/-- Double-and-add loop of `Curve.mul`, written with a structural fuel
argument (the fuel is an upper bound on the number of iterations; the
scalar halves each round, so fuel `n` suffices for scalar `n`).  Each
round adds the addend into the result when the low bit is set and always
doubles the addend, exactly as the source's while-loop does. -/
def Curve.mulAux {T : Type} [DecidableEq T] (C : CurveOps T) :
    Nat → Point T → Point T → Nat → Except CurveErr (Point T)
  | 0, result, _, _ => .ok result
  | fuel + 1, result, addend, n =>
    if n = 0 then .ok result
    else
      match (if n % 2 = 1 then Curve.add C result addend else .ok result) with
      | .error e => .error e
      | .ok result' =>
          match Curve.add C addend addend with
          | .error e => .error e
          | .ok addend' => Curve.mulAux C fuel result' addend' (n / 2)

/-- Scalar multiplication by a non-negative integer: double-and-add
starting from the identity. -/
def Curve.mul {T : Type} [DecidableEq T] (C : CurveOps T) (P : Point T) (n : Nat) :
    Except CurveErr (Point T) :=
  Curve.mulAux C n Point.infinity P n

/-! ### The prime-field variant and its field collaborator -/

/-- Modelled from the spec: the external `ZpField` collaborator's
canonical-residue reduction (`modulus`), which reduces an integer into
the representative range `[0, p)` of the residue field. -/
def zmodulus (p : Nat) (t : Int) : Int := t % (p : Int)

/-- Modelled from the spec: the external `ZpField` collaborator's
multiplicative inversion, which fails with a non-invertible-element
error when the element has no inverse modulo `p` and otherwise returns
the canonical representative of the inverse. -/
def zinvert (p : Nat) (t : Int) : Except CurveErr Int :=
  match (List.range p).find? (fun u : Nat => (t * (u : Int)) % (p : Int) == 1 % (p : Int)) with
  | some u => .ok (u : Int)
  | none => .error .nonInvertible

/-- The prime-field curve `y² = x³ + a·x + b` over `Z/p`. -/
structure ZpCurve where
  p : Nat
  a : Int
  b : Int

/-- Case 1 coefficient (distinct x): `k = (Qy − Py) · invert(Qx − Px)`,
reduced through the field. -/
def ZpCurve.first_case (C : ZpCurve) (P Q : Point Int) : Except CurveErr Int :=
  match P.x, P.y, Q.x, Q.y with
  | some px, some py, some qx, some qy => do
      let u ← zinvert C.p (qx - px)
      .ok (zmodulus C.p ((qy - py) * u))
  | _, _, _, _ => .error .calculationError

/-- Case 2 (equal x, distinct y): signals the point-at-infinity condition
when `(Py + Qy) mod p` is the zero element, otherwise a calculation
error. -/
def ZpCurve.second_case (C : ZpCurve) (P Q : Point Int) : Except CurveErr Int :=
  match P.x, P.y, Q.x, Q.y with
  | some _, some py, some _, some qy =>
      if zmodulus C.p (py + qy) = 0 then .error .infinitePoint
      else .error .calculationError
  | _, _, _, _ => .error .calculationError

/-- Case 3 coefficient (doubling): `k = (3·Px² + a) · invert(2·Py)`,
reduced through the field. -/
def ZpCurve.third_case (C : ZpCurve) (P Q : Point Int) : Except CurveErr Int :=
  match P.x, P.y, Q.x, Q.y with
  | some px, some py, some _, some _ => do
      let u ← zinvert C.p (2 * py)
      .ok (zmodulus C.p ((3 * px ^ 2 + C.a) * u))
  | _, _, _, _ => .error .calculationError

/-- Additive point: `x3 = k² − Px − Qx`, `y3 = Py + k·(x3 − Px)`, the
result being `(x3 mod p, −y3 mod p)`. -/
def ZpCurve.additive_point (C : ZpCurve) (P Q : Point Int) (k : Int) : Point Int :=
  match P.x, P.y, Q.x with
  | some px, some py, some qx =>
      let x3 := zmodulus C.p (k ^ 2 - px - qx)
      let y3 := zmodulus C.p (py + k * (x3 - px))
      ⟨some x3, some (zmodulus C.p (-y3))⟩
  | _, _, _ => ⟨none, none⟩

/-- The four delegated operations of the prime-field variant. -/
def ZpCurve.ops (C : ZpCurve) : CurveOps Int :=
  { first_case := C.first_case
    second_case := C.second_case
    third_case := C.third_case
    additive_point := C.additive_point
    normalize := zmodulus C.p }

/-- Point addition on the prime-field curve. -/
def ZpCurve.add (C : ZpCurve) : Point Int → Point Int → Except CurveErr (Point Int) :=
  Curve.add C.ops

/-- Scalar multiplication on the prime-field curve. -/
def ZpCurve.mul (C : ZpCurve) : Point Int → Nat → Except CurveErr (Point Int) :=
  Curve.mul C.ops

/-- Curve membership: true for the identity, and for affine points iff
`Py² mod p = (Px³ + a·Px + b) mod p`. -/
def ZpCurve.is_on_curve (C : ZpCurve) (P : Point Int) : Bool :=
  P.is_infinite ||
    match P.x, P.y with
    | some x, some y =>
        zmodulus C.p (y ^ 2) == zmodulus C.p (x ^ 3 + C.a * x + C.b)
    | _, _ => false

/-- The field's order (not the curve's point count). -/
def ZpCurve.order (C : ZpCurve) : Nat := C.p

/-- Brute-force enumeration: every coordinate pair in the field's domain
that satisfies the curve equation (in x-major order), followed by the
identity point. -/
def ZpCurve.all_points (C : ZpCurve) : List (Point Int) :=
  ((List.range C.p).flatMap fun x =>
    (List.range C.p).flatMap fun y =>
      if C.is_on_curve ⟨some (x : Int), some (y : Int)⟩
      then [⟨some (x : Int), some (y : Int)⟩] else []) ++ [Point.infinity]

/-- The search loop of `point_order`: starting from `n = 2`, step while
`mul(P, n)` is not the identity and `n` has not passed the field's
order; on exit fail with the order-not-found error when the bound was
exceeded, otherwise return `n`.  Errors raised by `mul` propagate.  The
structural fuel is an upper bound on the number of iterations. -/
def ZpCurve.orderAux (C : ZpCurve) (P : Point Int) : Nat → Nat → Except CurveErr Nat
  | 0, _ => .error .incorrectOrder
  | fuel + 1, n =>
      match C.mul P n with
      | .error e => .error e
      | .ok m =>
          if m ≠ Point.infinity ∧ n ≤ C.p then C.orderAux P fuel (n + 1)
          else if n > C.p then .error .incorrectOrder
          else .ok n

/-- Point order search: fails on the identity point and on points not on
the curve; otherwise searches upward from `n = 2`, bounded by the
field's order. -/
def ZpCurve.point_order (C : ZpCurve) (P : Point Int) : Except CurveErr Nat :=
  if P = Point.infinity then .error .infinitePoint
  else if ¬ C.is_on_curve P then .error .notOnCurve
  else C.orderAux P (C.p + 1) 2

/-! ### The binary-field variants

The polynomial-residue field collaborator is external to the repository;
it is modelled from the spec's field capability contract as a record of
operations over an opaque element type. -/

/-- Modelled from the spec: the field capability contract required from
the binary-field collaborator — zero element, canonical-residue
reduction, fallible multiplicative inversion, element normalization and
the ring operators used by the binary curves. -/
structure FieldOps (T : Type) where
  zero : T
  modulus : T → T
  invert : T → Except CurveErr T
  normalize_element : T → T
  add : T → T → T
  mul : T → T → T

/-- A binary-field curve's immutable state: its field collaborator and
the coefficients `a`, `b`, `c`. -/
structure GF2Curve (T : Type) where
  F : FieldOps T
  a : T
  b : T
  c : T

namespace GF2NotSupersingularCurve

variable {T : Type}

/-- Case 1 coefficient: `k = (Py + Qy) · invert(Px + Qx)`, reduced. -/
def first_case (C : GF2Curve T) (P Q : Point T) : Except CurveErr T :=
  match P.x, P.y, Q.x, Q.y with
  | some px, some py, some qx, some qy => do
      let u ← C.F.invert (C.F.add px qx)
      .ok (C.F.modulus (C.F.mul (C.F.add py qy) u))
  | _, _, _, _ => .error .calculationError

/-- Case 2: signals the point-at-infinity condition iff
`Qy = a·Px + Py` (asymmetric in `P` and `Q`), otherwise the calculation
error. -/
def second_case [DecidableEq T] (C : GF2Curve T) (P Q : Point T) : Except CurveErr T :=
  match P.x, P.y, Q.x, Q.y with
  | some px, some py, some _, some qy =>
      if C.F.modulus qy = C.F.modulus (C.F.add (C.F.mul C.a px) py)
      then .error .infinitePoint
      else .error .calculationError
  | _, _, _, _ => .error .calculationError

/-- Case 3 (doubling) coefficient:
`k = (Px·Px + a·Py) · invert(a·Px)`, reduced. -/
def third_case (C : GF2Curve T) (P Q : Point T) : Except CurveErr T :=
  match P.x, P.y, Q.x, Q.y with
  | some px, some py, some _, some _ => do
      let u ← C.F.invert (C.F.mul C.a px)
      .ok (C.F.modulus (C.F.mul (C.F.add (C.F.mul px px) (C.F.mul C.a py)) u))
  | _, _, _, _ => .error .calculationError

/-- Additive point: `x3 = k² + a·k + b + Px + Qx`,
`y3 = Py + k·(x3 + Px)`, the result being `(x3, a·x3 + y3)`. -/
def additive_point (C : GF2Curve T) (P Q : Point T) (k : T) : Point T :=
  match P.x, P.y, Q.x with
  | some px, some py, some qx =>
      let x3 := C.F.modulus
        (C.F.add (C.F.add (C.F.add (C.F.add (C.F.mul k k) (C.F.mul C.a k)) C.b) px) qx)
      let y3 := C.F.modulus (C.F.add py (C.F.mul k (C.F.add x3 px)))
      ⟨some x3, some (C.F.modulus (C.F.add (C.F.mul C.a x3) y3))⟩
  | _, _, _ => ⟨none, none⟩

/-- The four delegated operations of the non-supersingular binary
variant. -/
def ops (C : GF2Curve T) [DecidableEq T] : CurveOps T :=
  { first_case := first_case C
    second_case := second_case C
    third_case := third_case C
    additive_point := additive_point C
    normalize := C.F.normalize_element }

/-- Point addition on the non-supersingular binary curve. -/
def add (C : GF2Curve T) [DecidableEq T] : Point T → Point T → Except CurveErr (Point T) :=
  Curve.add (ops C)

/-- Scalar multiplication on the non-supersingular binary curve. -/
def mul (C : GF2Curve T) [DecidableEq T] : Point T → Nat → Except CurveErr (Point T) :=
  Curve.mul (ops C)

/-- Modelled from the spec: membership in the non-supersingular binary
curve `y² + xy = x³ + a·x² + b` (the source provides no membership test
for the binary variants; this is the defining equation from the spec,
compared through the field's canonical reduction). -/
def on_curve (C : GF2Curve T) [DecidableEq T] (P : Point T) : Bool :=
  P.is_infinite ||
    match P.x, P.y with
    | some x, some y =>
        C.F.modulus (C.F.add (C.F.mul y y) (C.F.mul x y)) ==
          C.F.modulus (C.F.add (C.F.add (C.F.mul (C.F.mul x x) x)
            (C.F.mul C.a (C.F.mul x x))) C.b)
    | _, _ => false

end GF2NotSupersingularCurve

namespace GF2SupersingularCurve

variable {T : Type}

/-- Case 1 coefficient: identical in shape to the non-supersingular
form, `k = (Py + Qy) · invert(Px + Qx)`. -/
def first_case (C : GF2Curve T) (P Q : Point T) : Except CurveErr T :=
  match P.x, P.y, Q.x, Q.y with
  | some px, some py, some qx, some qy => do
      let u ← C.F.invert (C.F.add px qx)
      .ok (C.F.modulus (C.F.mul (C.F.add py qy) u))
  | _, _, _, _ => .error .calculationError

/-- Case 2: signals the point-at-infinity condition iff `Qy = a + Py`,
otherwise the calculation error. -/
def second_case [DecidableEq T] (C : GF2Curve T) (P Q : Point T) : Except CurveErr T :=
  match P.x, P.y, Q.x, Q.y with
  | some _, some py, some _, some qy =>
      if C.F.modulus qy = C.F.modulus (C.F.add C.a py)
      then .error .infinitePoint
      else .error .calculationError
  | _, _, _, _ => .error .calculationError

/-- Case 3 (doubling): fails with the calculation error when `a`
reduces to the zero element, otherwise
`k = (Px·Px + b) · invert(a)`, reduced. -/
def third_case [DecidableEq T] (C : GF2Curve T) (P Q : Point T) : Except CurveErr T :=
  match P.x, P.y, Q.x, Q.y with
  | some px, some _, some _, some _ =>
      if C.F.modulus C.a = C.F.zero then .error .calculationError
      else do
        let u ← C.F.invert C.a
        .ok (C.F.modulus (C.F.mul (C.F.add (C.F.mul px px) C.b) u))
  | _, _, _, _ => .error .calculationError

/-- Additive point: `x3 = k² + Px + Qx`, `y3 = Py + k·(x3 + Px)`, the
result being `(x3, a + y3)`. -/
def additive_point (C : GF2Curve T) (P Q : Point T) (k : T) : Point T :=
  match P.x, P.y, Q.x with
  | some px, some py, some qx =>
      let x3 := C.F.modulus (C.F.add (C.F.add (C.F.mul k k) px) qx)
      let y3 := C.F.modulus (C.F.add py (C.F.mul k (C.F.add x3 px)))
      ⟨some x3, some (C.F.modulus (C.F.add C.a y3))⟩
  | _, _, _ => ⟨none, none⟩

/-- The four delegated operations of the supersingular binary variant. -/
def ops (C : GF2Curve T) [DecidableEq T] : CurveOps T :=
  { first_case := first_case C
    second_case := second_case C
    third_case := third_case C
    additive_point := additive_point C
    normalize := C.F.normalize_element }

/-- Point addition on the supersingular binary curve. -/
def add (C : GF2Curve T) [DecidableEq T] : Point T → Point T → Except CurveErr (Point T) :=
  Curve.add (ops C)

/-- Scalar multiplication on the supersingular binary curve. -/
def mul (C : GF2Curve T) [DecidableEq T] : Point T → Nat → Except CurveErr (Point T) :=
  Curve.mul (ops C)

/-- Modelled from the spec: membership in the supersingular binary curve
`y² + c·y = x³ + a·x + b` (the source provides no membership test for
the binary variants). -/
def on_curve (C : GF2Curve T) [DecidableEq T] (P : Point T) : Bool :=
  P.is_infinite ||
    match P.x, P.y with
    | some x, some y =>
        C.F.modulus (C.F.add (C.F.mul y y) (C.F.mul C.c y)) ==
          C.F.modulus (C.F.add (C.F.add (C.F.mul (C.F.mul x x) x)
            (C.F.mul C.a x)) C.b)
    | _, _ => false

end GF2SupersingularCurve

/-! ### A concrete binary field: GF(4) as residues of GF(2)[x] modulo x²+x+1

Elements are `0`, `1`, `ω = 2`, `ω² = ω + 1 = 3`; addition is
coefficientwise (xor), multiplication follows `ω³ = 1`.  Used to
instantiate the binary-field variants on concrete inputs. -/

/-- Addition in GF(4): coefficientwise xor of the two residues. -/
def gf4add (s t : Fin 4) : Fin 4 := ⟨(s.val ^^^ t.val) % 4, Nat.mod_lt _ (by norm_num)⟩

/-- Multiplication in GF(4) by table (`2 = ω`, `3 = ω²`, `ω³ = 1`). -/
def gf4mulv : Nat → Nat → Nat
  | 0, _ => 0
  | _, 0 => 0
  | 1, t => t
  | s, 1 => s
  | 2, 2 => 3
  | 2, 3 => 1
  | 3, 2 => 1
  | 3, 3 => 2
  | _, _ => 0

/-- Multiplication in GF(4). -/
def gf4mul (s t : Fin 4) : Fin 4 := ⟨gf4mulv s.val t.val % 4, Nat.mod_lt _ (by norm_num)⟩

/-- Inversion in GF(4): fails on the zero element. -/
def gf4invert (t : Fin 4) : Except CurveErr (Fin 4) :=
  match t with
  | 0 => .error .nonInvertible
  | 1 => .ok 1
  | 2 => .ok 3
  | 3 => .ok 2

/-- Modelled from the spec: a concrete binary polynomial-residue field,
GF(4) with residues as elements (so canonical reduction and
normalization are the identity on residues). -/
def gf4 : FieldOps (Fin 4) :=
  { zero := 0
    modulus := id
    invert := gf4invert
    normalize_element := id
    add := gf4add
    mul := gf4mul }

/-! ### Generic engine lemmas -/

section EngineLemmas

variable {T : Type} [DecidableEq T]

omit [DecidableEq T] in
lemma Point.is_infinite_infinity : (Point.infinity : Point T).is_infinite = true := rfl

omit [DecidableEq T] in
lemma Point.is_infinite_iff {P : Point T} : P.is_infinite = true ↔ P.x = none ∧ P.y = none := by
  cases P with
  | mk x y => cases x <;> cases y <;> simp [Point.is_infinite]

lemma Curve.add_infinity_left (C : CurveOps T) (Q : Point T) :
    Curve.add C Point.infinity Q = .ok Q := by
  simp [Curve.add, Point.is_infinite_infinity]

/-- The if-chain of the engine's three-way case dispatch. -/
def Curve.dispatch (C : CurveOps T) (P Q : Point T) : Except CurveErr T :=
  if P.x ≠ Q.x then C.first_case P Q
  else if P.x = Q.x ∧ P.y ≠ Q.y then C.second_case P Q
  else C.third_case P Q

/-- Addition on two non-infinite points, written through the dispatch. -/
lemma Curve.add_eq_dispatch (C : CurveOps T) {P Q : Point T}
    (hP : ¬ P.is_infinite = true) (hQ : ¬ Q.is_infinite = true) :
    Curve.add C P Q =
      match Curve.dispatch C P Q with
      | .error .infinitePoint => .ok Point.infinity
      | .error e => .error e
      | .ok k =>
          .ok ⟨(C.additive_point P Q (C.normalize k)).x.map C.normalize,
               (C.additive_point P Q (C.normalize k)).y.map C.normalize⟩ := by
  unfold Curve.add Curve.dispatch
  rw [if_neg hP, if_neg hQ]

lemma Curve.add_ne_infinitePoint (C : CurveOps T) (P Q : Point T) :
    Curve.add C P Q ≠ .error .infinitePoint := by
  by_cases hP : P.is_infinite = true
  · unfold Curve.add; rw [if_pos hP]; simp
  by_cases hQ : Q.is_infinite = true
  · unfold Curve.add; rw [if_neg hP, if_pos hQ]; simp
  rw [Curve.add_eq_dispatch C hP hQ]
  rcases h : Curve.dispatch C P Q with e | k
  · cases e <;> simp
  · simp

lemma Curve.mulAux_ne_infinitePoint (C : CurveOps T) :
    ∀ fuel result addend n,
      Curve.mulAux C fuel result addend n ≠ .error .infinitePoint := by
  intro fuel
  induction fuel with
  | zero => intro result addend n; simp [Curve.mulAux]
  | succ fuel ih =>
      intro result addend n
      unfold Curve.mulAux
      by_cases hn : n = 0
      · simp [hn]
      · rw [if_neg hn]
        rcases hr : (if n % 2 = 1 then Curve.add C result addend else .ok result) with e | r
        · have hne : e ≠ .infinitePoint := by
            by_cases hb : n % 2 = 1
            · rw [if_pos hb] at hr
              intro hee
              exact Curve.add_ne_infinitePoint C result addend (hee ▸ hr)
            · rw [if_neg hb] at hr; cases hr
          show ¬ Except.error e = _
          simp [hne]
        · rcases ha : Curve.add C addend addend with e | a
          · have hne : e ≠ .infinitePoint := by
              intro hee
              exact Curve.add_ne_infinitePoint C addend addend (hee ▸ ha)
            show ¬ Except.error e = _
            simp [hne]
          · show Curve.mulAux C fuel r a (n / 2) ≠ _
            exact ih r a (n / 2)

lemma Curve.mul_ne_infinitePoint (C : CurveOps T) (P : Point T) (n : Nat) :
    Curve.mul C P n ≠ .error .infinitePoint :=
  Curve.mulAux_ne_infinitePoint C n Point.infinity P n

lemma Curve.mul_zero_eq (C : CurveOps T) (P : Point T) :
    Curve.mul C P 0 = .ok Point.infinity := rfl

lemma Curve.mul_one_eq (C : CurveOps T) (P : Point T) :
    Curve.mul C P 1 = (Curve.add C P P).map fun _ => P := by
  show Curve.mulAux C 1 Point.infinity P 1 = _
  unfold Curve.mulAux
  rw [if_neg (by norm_num : ¬ (1 : Nat) = 0),
    if_pos (by norm_num : (1 : Nat) % 2 = 1), Curve.add_infinity_left]
  rcases h : Curve.add C P P with e | A <;> rfl

end EngineLemmas

/-! ### Residue arithmetic transfer lemmas for the prime-field variant -/

section ZpTransfer

lemma zmodulus_cast (p : Nat) (t : Int) : ((zmodulus p t : Int) : ZMod p) = (t : ZMod p) := by
  unfold zmodulus
  rw [Int.emod_def]
  push_cast
  simp

lemma zmodulus_eq_iff {p : Nat} {s t : Int} :
    zmodulus p s = zmodulus p t ↔ ((s : ZMod p) = (t : ZMod p)) :=
  (ZMod.intCast_eq_intCast_iff s t p).symm

lemma zmodulus_nonneg {p : Nat} (hp : 1 ≤ p) (t : Int) : 0 ≤ zmodulus p t :=
  Int.emod_nonneg t (by exact_mod_cast Nat.one_le_iff_ne_zero.mp hp)

lemma zmodulus_lt {p : Nat} (hp : 1 ≤ p) (t : Int) : zmodulus p t < p :=
  Int.emod_lt_of_pos t (by exact_mod_cast hp)

lemma zinvert_ok {p : Nat} {t u : Int} (h : zinvert p t = .ok u) :
    (t * u) % (p : Int) = 1 % (p : Int) ∧ 0 ≤ u ∧ u < p := by
  unfold zinvert at h
  rcases hfind : (List.range p).find?
      (fun u : Nat => (t * (u : Int)) % (p : Int) == 1 % (p : Int)) with _ | v
  · rw [hfind] at h; cases h
  · rw [hfind] at h
    have hu : u = (v : Int) := by cases h; rfl
    have hpred := List.find?_some hfind
    have hmem := List.mem_range.mp (List.mem_of_find?_eq_some hfind)
    refine ⟨?_, ?_, ?_⟩
    · rw [hu]; exact_mod_cast of_decide_eq_true hpred
    · rw [hu]; exact Int.natCast_nonneg v
    · rw [hu]; exact_mod_cast hmem

lemma zinvert_ok_cast {p : Nat} {t u : Int} (h : zinvert p t = .ok u) :
    (t : ZMod p) * (u : ZMod p) = 1 := by
  have h1 := (zinvert_ok h).1
  have : ((t * u : Int) : ZMod p) = ((1 : Int) : ZMod p) :=
    (ZMod.intCast_eq_intCast_iff _ _ _).mpr h1
  push_cast at this
  exact this

lemma zinvert_isOk_iff {p : Nat} (hp : 1 ≤ p) (t : Int) :
    (∃ u, zinvert p t = .ok u) ↔ IsUnit (t : ZMod p) := by
  haveI : NeZero p := ⟨by omega⟩
  constructor
  · rintro ⟨u, hu⟩
    exact isUnit_of_mul_eq_one _ _ (zinvert_ok_cast hu)
  · rintro ⟨w, hw⟩
    set v : Nat := (w.inv : ZMod p).val with hv
    have hvlt : v < p := ZMod.val_lt _
    have hinv : (t : ZMod p) * ((v : Nat) : ZMod p) = 1 := by
      rw [hv, ZMod.natCast_val, ZMod.cast_id]
      rw [← hw]
      exact w.mul_inv
    have hmod : (t * (v : Int)) % (p : Int) = 1 % (p : Int) := by
      apply (ZMod.intCast_eq_intCast_iff _ _ _).mp
      push_cast
      exact hinv
    unfold zinvert
    rcases hfind : (List.range p).find?
        (fun u : Nat => (t * (u : Int)) % (p : Int) == 1 % (p : Int)) with _ | z
    · exfalso
      have := List.find?_eq_none.mp hfind v (List.mem_range.mpr hvlt)
      rw [beq_iff_eq] at this
      exact this hmod
    · exact ⟨z, rfl⟩

end ZpTransfer

/-! ### The Weierstrass closure identities (pure commutative-ring facts
about the chord and tangent constructions, with the divisor inverted
through an explicit unit) -/

section WeierstrassIdentities

variable {R : Type} [CommRing R]

lemma weier_chord (x1 y1 x2 y2 u k a b : R)
    (e1 : y1 ^ 2 = x1 ^ 3 + a * x1 + b)
    (e2 : y2 ^ 2 = x2 ^ 3 + a * x2 + b)
    (hu : (x2 - x1) * u = 1)
    (hk : k = (y2 - y1) * u) :
    (-(y1 + k * ((k ^ 2 - x1 - x2) - x1))) ^ 2 =
      (k ^ 2 - x1 - x2) ^ 3 + a * (k ^ 2 - x1 - x2) + b := by
  have h3 : k * (x2 - x1) = y2 - y1 := by
    rw [hk]; linear_combination (y2 - y1) * hu
  linear_combination
    (1 - ((k ^ 2 - x1 - x2) - x1) * u) * e1 +
    (((k ^ 2 - x1 - x2) - x1) * u) * e2 +
    (((k ^ 2 - x1 - x2) - x1) * u * (y2 + k * (x2 - x1) + y1)) * h3 +
    (((k ^ 2 - x1 - x2) - x1) *
      (x2 ^ 2 + (x1 - k ^ 2) * x2 + (x1 ^ 2 - k ^ 2 * x1 + a - 2 * k * (y1 - k * x1)))) * hu

lemma weier_tangent (x1 y1 u k a b : R)
    (e1 : y1 ^ 2 = x1 ^ 3 + a * x1 + b)
    (hu : (2 * y1) * u = 1)
    (hk : k = (3 * x1 ^ 2 + a) * u) :
    (-(y1 + k * ((k ^ 2 - x1 - x1) - x1))) ^ 2 =
      (k ^ 2 - x1 - x1) ^ 3 + a * (k ^ 2 - x1 - x1) + b := by
  have h3 : k * (2 * y1) = 3 * x1 ^ 2 + a := by
    rw [hk]; linear_combination (3 * x1 ^ 2 + a) * hu
  linear_combination e1 + (((k ^ 2 - x1 - x1) - x1)) * h3

end WeierstrassIdentities

/-! ### Closure of the prime-field group law -/

section ZpClosure

lemma Curve.dispatch_full {T : Type} [DecidableEq T] (C : CurveOps T) (x1 y1 x2 y2 : T) :
    Curve.dispatch C ⟨some x1, some y1⟩ ⟨some x2, some y2⟩ =
      if x1 ≠ x2 then C.first_case ⟨some x1, some y1⟩ ⟨some x2, some y2⟩
      else if y1 ≠ y2 then C.second_case ⟨some x1, some y1⟩ ⟨some x2, some y2⟩
      else C.third_case ⟨some x1, some y1⟩ ⟨some x2, some y2⟩ := by
  unfold Curve.dispatch
  by_cases hx : x1 = x2 <;> by_cases hy : y1 = y2 <;> simp [hx, hy]

lemma ZpCurve.ops_first_case (C : ZpCurve) : C.ops.first_case = C.first_case := rfl

lemma ZpCurve.ops_second_case (C : ZpCurve) : C.ops.second_case = C.second_case := rfl

lemma ZpCurve.ops_third_case (C : ZpCurve) : C.ops.third_case = C.third_case := rfl

lemma Point.full_not_infinite {T : Type} (x y : T) :
    ¬ (Point.mk (some x) (some y)).is_infinite = true := by
  simp [Point.is_infinite]

lemma is_on_curve_infinity (C : ZpCurve) :
    C.is_on_curve Point.infinity = true := rfl

lemma is_on_curve_some_iff {C : ZpCurve} {x y : Int} :
    C.is_on_curve ⟨some x, some y⟩ = true ↔
      ((y : ZMod C.p) ^ 2 =
        (x : ZMod C.p) ^ 3 + (C.a : ZMod C.p) * (x : ZMod C.p) + (C.b : ZMod C.p)) := by
  unfold ZpCurve.is_on_curve
  rw [show (Point.mk (some x) (some y)).is_infinite = false from rfl]
  simp only [Bool.false_or, beq_iff_eq]
  rw [zmodulus_eq_iff]
  constructor
  · intro h; push_cast at h; exact h
  · intro h; push_cast; exact h

lemma is_on_curve_shape {C : ZpCurve} {P : Point Int}
    (h : C.is_on_curve P = true) (hinf : ¬ P.is_infinite = true) :
    ∃ x y, P = ⟨some x, some y⟩ := by
  cases P with
  | mk ox oy =>
      cases ox with
      | none =>
          cases oy with
          | none => exact (hinf rfl).elim
          | some y => simp [ZpCurve.is_on_curve, Point.is_infinite] at h
      | some x =>
          cases oy with
          | none => simp [ZpCurve.is_on_curve, Point.is_infinite] at h
          | some y => exact ⟨x, y, rfl⟩

/-- The normalized result point of a successful addition on full points
with raw coefficient `k`: the engine normalizes `k`, the additive
formula reduces `x3`, `y3` and negates `y3`, and the engine normalizes
both coordinates once more. -/
def zp_result (C : ZpCurve) (x1 y1 x2 k : Int) : Point Int :=
  let k' := zmodulus C.p k
  let x3 := zmodulus C.p (k' ^ 2 - x1 - x2)
  let y3 := zmodulus C.p (y1 + k' * (x3 - x1))
  ⟨some (zmodulus C.p x3), some (zmodulus C.p (zmodulus C.p (-y3)))⟩

lemma zp_add_ok_full {C : ZpCurve} {x1 y1 x2 y2 k : Int} {R : Point Int}
    (hdisp : Curve.dispatch C.ops ⟨some x1, some y1⟩ ⟨some x2, some y2⟩ = .ok k)
    (h : C.add ⟨some x1, some y1⟩ ⟨some x2, some y2⟩ = .ok R) :
    R = zp_result C x1 y1 x2 k := by
  rw [ZpCurve.add, Curve.add_eq_dispatch C.ops
    (Point.full_not_infinite x1 y1) (Point.full_not_infinite x2 y2), hdisp] at h
  cases h
  rfl

/-- Membership of the normalized result point reduces to the Weierstrass
closure identity over `ZMod p`. -/
lemma zp_result_on_curve {C : ZpCurve} {x1 y1 x2 k : Int} (kc : ZMod C.p)
    (hkc : ((k : Int) : ZMod C.p) = kc)
    (h : (-(  (y1 : ZMod C.p) + kc *
          ((kc ^ 2 - (x1 : ZMod C.p) - (x2 : ZMod C.p)) - (x1 : ZMod C.p)))) ^ 2 =
        (kc ^ 2 - (x1 : ZMod C.p) - (x2 : ZMod C.p)) ^ 3 +
          (C.a : ZMod C.p) * (kc ^ 2 - (x1 : ZMod C.p) - (x2 : ZMod C.p)) +
          (C.b : ZMod C.p)) :
    C.is_on_curve (zp_result C x1 y1 x2 k) = true := by
  unfold zp_result
  rw [is_on_curve_some_iff]
  push_cast [zmodulus_cast]
  rw [hkc]
  linear_combination h

/-- Closure of prime-field addition: a successful `add` of two points on
the curve lands on the curve. -/
lemma zp_add_on_curve {C : ZpCurve} {P Q R : Point Int}
    (hP : C.is_on_curve P = true) (hQ : C.is_on_curve Q = true)
    (h : C.add P Q = .ok R) : C.is_on_curve R = true := by
  by_cases hPinf : P.is_infinite = true
  · rw [ZpCurve.add] at h; unfold Curve.add at h; rw [if_pos hPinf] at h
    cases h; exact hQ
  by_cases hQinf : Q.is_infinite = true
  · rw [ZpCurve.add] at h; unfold Curve.add at h
    rw [if_neg hPinf, if_pos hQinf] at h
    cases h; exact hP
  obtain ⟨x1, y1, hP1⟩ := is_on_curve_shape hP hPinf
  obtain ⟨x2, y2, hQ1⟩ := is_on_curve_shape hQ hQinf
  subst hP1; subst hQ1
  rw [is_on_curve_some_iff] at hP hQ
  by_cases hx : x1 = x2
  · by_cases hy : y1 = y2
    · -- case 3: doubling
      subst hx; subst hy
      have hdisp0 : Curve.dispatch C.ops ⟨some x1, some y1⟩ ⟨some x1, some y1⟩ =
          C.ops.third_case ⟨some x1, some y1⟩ ⟨some x1, some y1⟩ := by
        rw [Curve.dispatch_full]; simp
      rcases hz : zinvert C.p (2 * y1) with e | u
      · exfalso
        have hde : Curve.dispatch C.ops ⟨some x1, some y1⟩ ⟨some x1, some y1⟩ = .error e := by
          rw [hdisp0, ZpCurve.ops_third_case]
          simp only [ZpCurve.third_case]
          rw [hz]; rfl
        have hee : e = CurveErr.nonInvertible := by
          unfold zinvert at hz
          rcases hf : (List.range C.p).find?
              (fun u : Nat => ((2 * y1) * (u : Int)) % (C.p : Int) == 1 % (C.p : Int))
            with _ | v <;> rw [hf] at hz
          · cases hz; rfl
          · cases hz
        rw [ZpCurve.add, Curve.add_eq_dispatch C.ops
          (Point.full_not_infinite x1 y1) (Point.full_not_infinite x1 y1), hde, hee] at h
        simp at h
      · have hdisp : Curve.dispatch C.ops ⟨some x1, some y1⟩ ⟨some x1, some y1⟩ =
            .ok (zmodulus C.p ((3 * x1 ^ 2 + C.a) * u)) := by
          rw [hdisp0, ZpCurve.ops_third_case]
          simp only [ZpCurve.third_case]
          rw [hz]; rfl
        rw [zp_add_ok_full hdisp h]
        have hu : ((2 * y1 : Int) : ZMod C.p) * (u : ZMod C.p) = 1 := zinvert_ok_cast hz
        push_cast at hu
        refine zp_result_on_curve
          ((3 * (x1 : ZMod C.p) ^ 2 + (C.a : ZMod C.p)) * (u : ZMod C.p)) ?_ ?_
        · show ((zmodulus C.p ((3 * x1 ^ 2 + C.a) * u) : Int) : ZMod C.p) =
            (3 * (x1 : ZMod C.p) ^ 2 + (C.a : ZMod C.p)) * (u : ZMod C.p)
          rw [zmodulus_cast]; push_cast; ring
        · exact weier_tangent (x1 : ZMod C.p) (y1 : ZMod C.p) (u : ZMod C.p) _
            (C.a : ZMod C.p) (C.b : ZMod C.p) hP (by linear_combination hu) rfl
    · -- case 2: vertical pair
      subst hx
      have hdisp0 : Curve.dispatch C.ops ⟨some x1, some y1⟩ ⟨some x1, some y2⟩ =
          C.ops.second_case ⟨some x1, some y1⟩ ⟨some x1, some y2⟩ := by
        rw [Curve.dispatch_full]; simp [hy]
      by_cases hv : zmodulus C.p (y1 + y2) = 0
      · have hde : Curve.dispatch C.ops ⟨some x1, some y1⟩ ⟨some x1, some y2⟩ =
            .error .infinitePoint := by
          rw [hdisp0, ZpCurve.ops_second_case]
          simp only [ZpCurve.second_case]
          rw [if_pos hv]
        rw [ZpCurve.add, Curve.add_eq_dispatch C.ops
          (Point.full_not_infinite x1 y1) (Point.full_not_infinite x1 y2), hde] at h
        cases h
        exact is_on_curve_infinity C
      · exfalso
        have hde : Curve.dispatch C.ops ⟨some x1, some y1⟩ ⟨some x1, some y2⟩ =
            .error .calculationError := by
          rw [hdisp0, ZpCurve.ops_second_case]
          simp only [ZpCurve.second_case]
          rw [if_neg hv]
        rw [ZpCurve.add, Curve.add_eq_dispatch C.ops
          (Point.full_not_infinite x1 y1) (Point.full_not_infinite x1 y2), hde] at h
        simp at h
  · -- case 1: chord
    have hdisp0 : Curve.dispatch C.ops ⟨some x1, some y1⟩ ⟨some x2, some y2⟩ =
        C.ops.first_case ⟨some x1, some y1⟩ ⟨some x2, some y2⟩ := by
      rw [Curve.dispatch_full]; simp [hx]
    rcases hz : zinvert C.p (x2 - x1) with e | u
    · exfalso
      have hee : e = CurveErr.nonInvertible := by
        unfold zinvert at hz
        rcases hf : (List.range C.p).find?
            (fun u : Nat => ((x2 - x1) * (u : Int)) % (C.p : Int) == 1 % (C.p : Int))
          with _ | v <;> rw [hf] at hz
        · cases hz; rfl
        · cases hz
      have hde : Curve.dispatch C.ops ⟨some x1, some y1⟩ ⟨some x2, some y2⟩ = .error e := by
        rw [hdisp0, ZpCurve.ops_first_case]
        simp only [ZpCurve.first_case]
        rw [hz]; rfl
      rw [ZpCurve.add, Curve.add_eq_dispatch C.ops
        (Point.full_not_infinite x1 y1) (Point.full_not_infinite x2 y2), hde, hee] at h
      simp at h
    · have hdisp : Curve.dispatch C.ops ⟨some x1, some y1⟩ ⟨some x2, some y2⟩ =
          .ok (zmodulus C.p ((y2 - y1) * u)) := by
        rw [hdisp0, ZpCurve.ops_first_case]
        simp only [ZpCurve.first_case]
        rw [hz]; rfl
      rw [zp_add_ok_full hdisp h]
      have hu : ((x2 - x1 : Int) : ZMod C.p) * (u : ZMod C.p) = 1 := zinvert_ok_cast hz
      push_cast at hu
      refine zp_result_on_curve
        (((y2 : ZMod C.p) - (y1 : ZMod C.p)) * (u : ZMod C.p)) ?_ ?_
      · show ((zmodulus C.p ((y2 - y1) * u) : Int) : ZMod C.p) =
          ((y2 : ZMod C.p) - (y1 : ZMod C.p)) * (u : ZMod C.p)
        rw [zmodulus_cast]; push_cast; ring
      · exact weier_chord (x1 : ZMod C.p) (y1 : ZMod C.p) (x2 : ZMod C.p) (y2 : ZMod C.p)
          (u : ZMod C.p) _ (C.a : ZMod C.p) (C.b : ZMod C.p) hP hQ
          (by linear_combination hu) rfl

/-- Closure of the double-and-add loop. -/
lemma zp_mulAux_on_curve {C : ZpCurve} :
    ∀ fuel result addend n R,
      C.is_on_curve result = true → C.is_on_curve addend = true →
      Curve.mulAux C.ops fuel result addend n = .ok R →
      C.is_on_curve R = true := by
  intro fuel
  induction fuel with
  | zero =>
      intro result addend n R hres hadd h
      cases h; exact hres
  | succ fuel ih =>
      intro result addend n R hres hadd h
      unfold Curve.mulAux at h
      by_cases hn : n = 0
      · rw [if_pos hn] at h; cases h; exact hres
      · rw [if_neg hn] at h
        rcases hr : (if n % 2 = 1 then Curve.add C.ops result addend else .ok result)
          with e | r
        · rw [hr] at h; cases h
        · rw [hr] at h
          have hr' : C.is_on_curve r = true := by
            by_cases hb : n % 2 = 1
            · rw [if_pos hb] at hr
              exact zp_add_on_curve hres hadd hr
            · rw [if_neg hb] at hr; cases hr; exact hres
          rcases ha : Curve.add C.ops addend addend with e | a
          · rw [ha] at h; cases h
          · rw [ha] at h
            have ha' : C.is_on_curve a = true := zp_add_on_curve hadd hadd ha
            exact ih r a (n / 2) R hr' ha' h

/-- Closure of prime-field scalar multiplication. -/
lemma zp_mul_on_curve {C : ZpCurve} {P R : Point Int} {n : Nat}
    (hP : C.is_on_curve P = true) (h : C.mul P n = .ok R) :
    C.is_on_curve R = true :=
  zp_mulAux_on_curve n Point.infinity P n R (is_on_curve_infinity C) hP h

/-- Specification of a successful order-search loop run: the returned
`m` is within the bound, `mul(P, m)` is the identity, and every index
from the starting point up to `m` gave a non-identity point. -/
lemma orderAux_ok_spec {C : ZpCurve} {P : Point Int} :
    ∀ fuel n m, C.orderAux P fuel n = .ok m →
      n ≤ m ∧ m ≤ C.p ∧ C.mul P m = .ok Point.infinity ∧
      ∀ j, n ≤ j → j < m → ∃ v, C.mul P j = .ok v ∧ v ≠ Point.infinity := by
  intro fuel
  induction fuel with
  | zero => intro n m h; cases h
  | succ fuel ih =>
      intro n m h
      unfold ZpCurve.orderAux at h
      rcases hm : C.mul P n with e | v
      · rw [hm] at h
        exact absurd (h : Except.error e = Except.ok m) (by simp)
      · rw [hm] at h
        replace h : (if v ≠ Point.infinity ∧ n ≤ C.p then C.orderAux P fuel (n + 1)
            else if n > C.p then Except.error CurveErr.incorrectOrder
            else Except.ok n) = Except.ok m := h
        by_cases hcond : v ≠ Point.infinity ∧ n ≤ C.p
        · rw [if_pos hcond] at h
          obtain ⟨h1, h2, h3, h4⟩ := ih (n + 1) m h
          refine ⟨by omega, h2, h3, ?_⟩
          intro j hj1 hj2
          by_cases hjn : j = n
          · subst hjn; exact ⟨v, hm, hcond.1⟩
          · exact h4 j (by omega) hj2
        · rw [if_neg hcond] at h
          by_cases hgt : n > C.p
          · rw [if_pos hgt] at h; cases h
          · rw [if_neg hgt] at h
            cases h
            push_neg at hcond
            have hle : n ≤ C.p := by omega
            have hv : v = Point.infinity := by
              by_cases hvi : v = Point.infinity
              · exact hvi
              · exact absurd hle (by simpa using hcond hvi)
            exact ⟨le_refl n, hle, by rw [hm, hv],
              fun j hj1 hj2 => absurd (lt_of_le_of_lt hj1 hj2) (lt_irrefl _)⟩

/-- When every `mul(P, j)` in the search range returns a non-identity
point (and `mul(P, p+1)` returns at all), the loop runs past the bound
and fails with the order-not-found error. -/
lemma orderAux_exceeds {C : ZpCurve} {P : Point Int} :
    ∀ fuel n, C.p + 2 ≤ n + fuel → 2 ≤ n → n ≤ C.p + 1 →
      (∀ j, 2 ≤ j → j ≤ C.p + 1 →
        ∃ v, C.mul P j = .ok v ∧ (j ≤ C.p → v ≠ Point.infinity)) →
      C.orderAux P fuel n = .error .incorrectOrder := by
  intro fuel
  induction fuel with
  | zero => intro n hfuel h2 hle hyp; omega
  | succ fuel ih =>
      intro n hfuel h2 hle hyp
      obtain ⟨v, hv, hvne⟩ := hyp n h2 hle
      unfold ZpCurve.orderAux
      rw [hv]
      show (if v ≠ Point.infinity ∧ n ≤ C.p then C.orderAux P fuel (n + 1)
          else if n > C.p then Except.error CurveErr.incorrectOrder
          else Except.ok n) = _
      by_cases hn : n ≤ C.p
      · rw [if_pos ⟨hvne hn, hn⟩]
        exact ih (n + 1) (by omega) (by omega) (by omega) hyp
      · have hcond : ¬ (v ≠ Point.infinity ∧ n ≤ C.p) := fun hc => hn hc.2
        rw [if_neg hcond, if_pos (by omega : n > C.p)]

lemma point_order_eq_orderAux {C : ZpCurve} {P : Point Int}
    (h1 : P ≠ Point.infinity) (h2 : C.is_on_curve P = true) :
    C.point_order P = C.orderAux P (C.p + 1) 2 := by
  unfold ZpCurve.point_order
  rw [if_neg h1, h2]
  simp

end ZpClosure

/-! ### Commutativity of prime-field addition -/

section ZpComm

lemma zinvert_error_eq {p : Nat} {t : Int} {e : CurveErr}
    (h : zinvert p t = .error e) : e = .nonInvertible := by
  unfold zinvert at h
  rcases hf : (List.range p).find?
      (fun u : Nat => (t * (u : Int)) % (p : Int) == 1 % (p : Int)) with _ | v <;>
    rw [hf] at h
  · cases h; rfl
  · cases h

lemma zinvert_sub_symm {p : Nat} (hp : 1 ≤ p) (s t : Int) {u : Int}
    (h : zinvert p (s - t) = .ok u) : ∃ w, zinvert p (t - s) = .ok w := by
  rw [zinvert_isOk_iff hp]
  have h1 : IsUnit ((s - t : Int) : ZMod p) :=
    isUnit_of_mul_eq_one _ _ (zinvert_ok_cast h)
  have h2 : ((t - s : Int) : ZMod p) = -((s - t : Int) : ZMod p) := by push_cast; ring
  rw [h2]
  exact h1.neg

/-- The case-1 coefficient strategy is symmetric in its two points. -/
lemma zp_first_case_comm {C : ZpCurve} (hp : 1 ≤ C.p) (x1 y1 x2 y2 : Int) :
    C.first_case ⟨some x1, some y1⟩ ⟨some x2, some y2⟩ =
      C.first_case ⟨some x2, some y2⟩ ⟨some x1, some y1⟩ := by
  simp only [ZpCurve.first_case]
  rcases hz1 : zinvert C.p (x2 - x1) with e1 | u1 <;>
    rcases hz2 : zinvert C.p (x1 - x2) with e2 | u2
  · rw [zinvert_error_eq hz1, zinvert_error_eq hz2]; rfl
  · exfalso
    obtain ⟨w, hw⟩ := zinvert_sub_symm hp x1 x2 hz2
    rw [hw] at hz1; cases hz1
  · exfalso
    obtain ⟨w, hw⟩ := zinvert_sub_symm hp x2 x1 hz1
    rw [hw] at hz2; cases hz2
  · show Except.ok (zmodulus C.p ((y2 - y1) * u1)) =
      Except.ok (zmodulus C.p ((y1 - y2) * u2))
    have hu1 := zinvert_ok_cast hz1
    have hu2 := zinvert_ok_cast hz2
    push_cast at hu1 hu2
    congr 1
    rw [zmodulus_eq_iff]
    push_cast
    have hneg : (u2 : ZMod C.p) = -(u1 : ZMod C.p) := by
      linear_combination (-(u1 : ZMod C.p)) * hu2 + (-(u2 : ZMod C.p)) * hu1
    rw [hneg]
    ring

/-- With any coordinate absent (and neither point infinite) every
dispatch branch lands in a strategy's unreachable-input branch. -/
lemma zp_dispatch_junk {C : ZpCurve} {P Q : Point Int}
    (hjunk : P.x = none ∧ P.y ≠ none ∨ P.x ≠ none ∧ P.y = none ∨
             Q.x = none ∧ Q.y ≠ none ∨ Q.x ≠ none ∧ Q.y = none) :
    Curve.dispatch C.ops P Q = .error .calculationError := by
  unfold Curve.dispatch
  rcases P with ⟨px, py⟩
  rcases Q with ⟨qx, qy⟩
  rcases px with _ | x1 <;> rcases py with _ | y1 <;>
    rcases qx with _ | x2 <;> rcases qy with _ | y2 <;>
    simp only [ZpCurve.ops_first_case, ZpCurve.ops_second_case, ZpCurve.ops_third_case] <;>
    split_ifs <;>
    simp_all [ZpCurve.first_case, ZpCurve.second_case, ZpCurve.third_case]

lemma ZpCurve.ops_additive_point (C : ZpCurve) :
    C.ops.additive_point = C.additive_point := rfl

lemma ZpCurve.ops_normalize (C : ZpCurve) : C.ops.normalize = zmodulus C.p := rfl

/-- Commutativity of prime-field addition on full points. -/
lemma zp_add_comm_full {C : ZpCurve} (hp : 1 ≤ C.p) (x1 y1 x2 y2 : Int) :
    C.add ⟨some x1, some y1⟩ ⟨some x2, some y2⟩ =
      C.add ⟨some x2, some y2⟩ ⟨some x1, some y1⟩ := by
  show Curve.add C.ops _ _ = Curve.add C.ops _ _
  rw [Curve.add_eq_dispatch C.ops (Point.full_not_infinite x1 y1) (Point.full_not_infinite x2 y2),
      Curve.add_eq_dispatch C.ops (Point.full_not_infinite x2 y2) (Point.full_not_infinite x1 y1),
      Curve.dispatch_full, Curve.dispatch_full]
  by_cases hx : x1 = x2
  · subst hx
    by_cases hy : y1 = y2
    · subst hy; rfl
    · rw [if_neg (by simp : ¬ x1 ≠ x1), if_neg (by simp : ¬ x1 ≠ x1),
          if_pos hy, if_pos (Ne.symm hy)]
      by_cases hv : zmodulus C.p (y1 + y2) = 0
      · have h1 : C.ops.second_case ⟨some x1, some y1⟩ ⟨some x1, some y2⟩ =
            .error .infinitePoint := by
          rw [ZpCurve.ops_second_case]
          simp only [ZpCurve.second_case]; rw [if_pos hv]
        have h2 : C.ops.second_case ⟨some x1, some y2⟩ ⟨some x1, some y1⟩ =
            .error .infinitePoint := by
          rw [ZpCurve.ops_second_case]
          simp only [ZpCurve.second_case]; rw [Int.add_comm y2 y1, if_pos hv]
        rw [h1, h2]
      · have h1 : C.ops.second_case ⟨some x1, some y1⟩ ⟨some x1, some y2⟩ =
            .error .calculationError := by
          rw [ZpCurve.ops_second_case]
          simp only [ZpCurve.second_case]; rw [if_neg hv]
        have h2 : C.ops.second_case ⟨some x1, some y2⟩ ⟨some x1, some y1⟩ =
            .error .calculationError := by
          rw [ZpCurve.ops_second_case]
          simp only [ZpCurve.second_case]; rw [Int.add_comm y2 y1, if_neg hv]
        rw [h1, h2]
  · rw [if_pos hx, if_pos (Ne.symm hx)]
    rcases hz : zinvert C.p (x2 - x1) with e | u
    · have h1 : C.ops.first_case ⟨some x1, some y1⟩ ⟨some x2, some y2⟩ = .error e := by
        rw [ZpCurve.ops_first_case]
        simp only [ZpCurve.first_case]; rw [hz]; rfl
      have h2 : C.ops.first_case ⟨some x2, some y2⟩ ⟨some x1, some y1⟩ = .error e := by
        rw [ZpCurve.ops_first_case]
        exact (zp_first_case_comm hp x1 y1 x2 y2).symm.trans
          (by simp only [ZpCurve.first_case]; rw [hz]; rfl)
      rw [h1, h2]
      cases e <;> rfl
    · have h1 : C.ops.first_case ⟨some x1, some y1⟩ ⟨some x2, some y2⟩ =
          .ok (zmodulus C.p ((y2 - y1) * u)) := by
        rw [ZpCurve.ops_first_case]
        simp only [ZpCurve.first_case]; rw [hz]; rfl
      have h2 : C.ops.first_case ⟨some x2, some y2⟩ ⟨some x1, some y1⟩ =
          .ok (zmodulus C.p ((y2 - y1) * u)) := by
        rw [ZpCurve.ops_first_case]
        exact (zp_first_case_comm hp x1 y1 x2 y2).symm.trans
          (by simp only [ZpCurve.first_case]; rw [hz]; rfl)
      rw [h1, h2]
      have hu := zinvert_ok_cast hz
      push_cast at hu
      simp only [ZpCurve.ops_additive_point, ZpCurve.ops_normalize, ZpCurve.additive_point,
        Option.map_some]
      have hx3 : zmodulus C.p ((zmodulus C.p (zmodulus C.p ((y2 - y1) * u))) ^ 2 - x2 - x1) =
          zmodulus C.p ((zmodulus C.p (zmodulus C.p ((y2 - y1) * u))) ^ 2 - x1 - x2) := by
        rw [sub_right_comm]
      rw [hx3]
      congr 2
      simp only [Option.map_some']
      congr 1
      rw [zmodulus_eq_iff]
      push_cast [zmodulus_cast]
      linear_combination ((y1 : ZMod C.p) - (y2 : ZMod C.p)) * hu

/-- Commutativity of prime-field addition, for every pair of points. -/
lemma zp_add_comm {C : ZpCurve} (hp : 1 ≤ C.p) (P Q : Point Int) :
    C.add P Q = C.add Q P := by
  by_cases hPinf : P.is_infinite = true
  · by_cases hQinf : Q.is_infinite = true
    · have h1 := Point.is_infinite_iff.mp hPinf
      have h2 := Point.is_infinite_iff.mp hQinf
      have : P = Q := by
        rcases P with ⟨px, py⟩; rcases Q with ⟨qx, qy⟩
        simp_all
      rw [this]
    · show Curve.add C.ops P Q = Curve.add C.ops Q P
      unfold Curve.add
      rw [if_pos hPinf, if_neg hQinf, if_pos hPinf]
  · by_cases hQinf : Q.is_infinite = true
    · show Curve.add C.ops P Q = Curve.add C.ops Q P
      unfold Curve.add
      rw [if_neg hPinf, if_pos hQinf, if_pos hQinf]
    · show Curve.add C.ops P Q = Curve.add C.ops Q P
      rw [Curve.add_eq_dispatch C.ops hPinf hQinf,
          Curve.add_eq_dispatch C.ops hQinf hPinf]
      rcases hPx : P.x with _ | x1
      · -- P.x = none, P.y = some (else infinite)
        rcases hPy : P.y with _ | y1
        · exact absurd (Point.is_infinite_iff.mpr ⟨hPx, hPy⟩) hPinf
        · rw [zp_dispatch_junk (by simp [hPx, hPy]),
              zp_dispatch_junk (Or.inr (Or.inr (Or.inl (by simp [hPx, hPy]))))]
      · rcases hPy : P.y with _ | y1
        · rw [zp_dispatch_junk (Or.inr (Or.inl (by simp [hPx, hPy]))),
              zp_dispatch_junk (Or.inr (Or.inr (Or.inr (by simp [hPx, hPy]))))]
        · rcases hQx : Q.x with _ | x2
          · rcases hQy : Q.y with _ | y2
            · exact absurd (Point.is_infinite_iff.mpr ⟨hQx, hQy⟩) hQinf
            · rw [zp_dispatch_junk (Or.inr (Or.inr (Or.inl (by simp [hQx, hQy])))),
                  zp_dispatch_junk (by simp [hQx, hQy])]
          · rcases hQy : Q.y with _ | y2
            · rw [zp_dispatch_junk (Or.inr (Or.inr (Or.inr (by simp [hQx, hQy])))),
                  zp_dispatch_junk (Or.inr (Or.inl (by simp [hQx, hQy])))]
            · -- both full
              obtain ⟨rfl⟩ : P = ⟨some x1, some y1⟩ := by
                rcases P with ⟨px, py⟩; simp_all
              obtain ⟨rfl⟩ : Q = ⟨some x2, some y2⟩ := by
                rcases Q with ⟨qx, qy⟩; simp_all
              exact zp_add_comm_full hp x1 y1 x2 y2

end ZpComm

/-! ### Commutativity of the binary-field variants

The polynomial-residue field is external; its algebraic contract is
modelled from the spec as a bundle of laws: the ring laws of GF(2)[x]
(characteristic 2), compatibility of the canonical reduction with the
ring operations, correctness of inversion, and normalization respecting
the residue class. -/

/-- Modelled from the spec: the laws of the binary polynomial-residue
field collaborator (a commutative characteristic-2 ring of polynomials
with reduction `modulus` into residues, fallible inversion and residue
normalization). -/
structure GF2Laws {T : Type} (F : FieldOps T) : Prop where
  add_comm : ∀ s t, F.add s t = F.add t s
  add_assoc : ∀ s t w, F.add (F.add s t) w = F.add s (F.add t w)
  add_self : ∀ s, F.add s s = F.zero
  zero_add : ∀ s, F.add F.zero s = s
  mod_add : ∀ s t, F.modulus (F.add s t) = F.modulus (F.add (F.modulus s) (F.modulus t))
  mod_mul : ∀ s t, F.modulus (F.mul s t) = F.modulus (F.mul (F.modulus s) (F.modulus t))
  mod_mod : ∀ s, F.modulus (F.modulus s) = F.modulus s
  mul_add : ∀ s t w, F.mul s (F.add t w) = F.add (F.mul s t) (F.mul s w)
  inv_cancel : ∀ s u, F.invert s = .ok u →
    ∀ t, F.modulus (F.mul (F.mul t u) s) = F.modulus t
  mod_norm : ∀ s, F.modulus (F.normalize_element s) = F.modulus s
  norm_congr : ∀ s t, F.modulus s = F.modulus t →
    F.normalize_element s = F.normalize_element t

section GF2CommProofs

variable {T : Type} {F : FieldOps T}

lemma GF2Laws.meq_add (L : GF2Laws F) {s s' t t' : T}
    (hs : F.modulus s = F.modulus s') (ht : F.modulus t = F.modulus t') :
    F.modulus (F.add s t) = F.modulus (F.add s' t') := by
  rw [L.mod_add, hs, ht, ← L.mod_add]

lemma GF2Laws.meq_mul (L : GF2Laws F) {s s' t t' : T}
    (hs : F.modulus s = F.modulus s') (ht : F.modulus t = F.modulus t') :
    F.modulus (F.mul s t) = F.modulus (F.mul s' t') := by
  rw [L.mod_mul, hs, ht, ← L.mod_mul]

/-- Characteristic-2 cancellation: congruent sums with a congruent-to-zero
difference collapse. -/
lemma GF2Laws.meq_of_add_meq_zero (L : GF2Laws F) {s t : T}
    (h : F.modulus (F.add s t) = F.modulus F.zero) :
    F.modulus s = F.modulus t := by
  have step : F.modulus t = F.modulus s := by
    calc F.modulus t = F.modulus (F.add F.zero t) := by rw [L.zero_add]
      _ = F.modulus (F.add (F.add s s) t) := by rw [L.add_self]
      _ = F.modulus (F.add s (F.add s t)) := by rw [L.add_assoc]
      _ = F.modulus (F.add s F.zero) := L.meq_add rfl h
      _ = F.modulus (F.add F.zero s) := by rw [L.add_comm]
      _ = F.modulus s := by rw [L.zero_add]
  exact step.symm

/-- The asymmetric vertical-line checks are symmetric in effect: in
characteristic 2, `qy ≡ c + py` iff `py ≡ c + qy`. -/
lemma GF2Laws.flip (L : GF2Laws F) (c py qy : T)
    (h : F.modulus qy = F.modulus (F.add c py)) :
    F.modulus py = F.modulus (F.add c qy) := by
  have : F.modulus (F.add c qy) = F.modulus (F.add c (F.add c py)) :=
    L.meq_add rfl h
  rw [this, ← L.add_assoc, show F.add (F.add c c) py = F.add F.zero py from by
    rw [L.add_self], L.zero_add]

/-- The engine-normalized case-1 coefficient times the x-sum is congruent
to the y-sum. -/
lemma GF2Laws.k_cancel (L : GF2Laws F) {sy sx u : T}
    {k : T} (hk : F.modulus k = F.modulus (F.mul sy u))
    (hinv : F.invert sx = .ok u) :
    F.modulus (F.mul k sx) = F.modulus sy := by
  calc F.modulus (F.mul k sx) = F.modulus (F.mul (F.mul sy u) sx) :=
        L.meq_mul hk rfl
    _ = F.modulus sy := L.inv_cancel sx u hinv sy

/-- The `y3` halves of the additive formulas agree when the points are
swapped, given the case-1 coefficient's defining congruence. -/
lemma GF2Laws.y3_eq (L : GF2Laws F) (px py qx qy u k x3 : T)
    (hk : F.modulus k = F.modulus (F.mul (F.add py qy) u))
    (hinv : F.invert (F.add px qx) = .ok u) :
    F.modulus (F.add py (F.mul k (F.add x3 px))) =
      F.modulus (F.add qy (F.mul k (F.add x3 qx))) := by
  haveI : Std.Associative F.add := ⟨L.add_assoc⟩
  haveI : Std.Commutative F.add := ⟨L.add_comm⟩
  apply L.meq_of_add_meq_zero
  have hshuffle : F.add (F.add py (F.mul k (F.add x3 px)))
      (F.add qy (F.mul k (F.add x3 qx))) =
      F.add (F.add (F.mul k x3) (F.mul k x3))
        (F.add (F.add py qy) (F.mul k (F.add px qx))) := by
    rw [L.mul_add, L.mul_add, L.mul_add]
    ac_rfl
  rw [hshuffle, L.add_self, L.zero_add]
  have h1 : F.modulus (F.mul k (F.add px qx)) = F.modulus (F.add py qy) :=
    L.k_cancel hk hinv
  calc F.modulus (F.add (F.add py qy) (F.mul k (F.add px qx)))
      = F.modulus (F.add (F.add py qy) (F.add py qy)) := L.meq_add rfl h1
    _ = F.modulus F.zero := by rw [L.add_self]

end GF2CommProofs

/-- Infinity cases of commutativity, shared by every variant. -/
lemma Curve.add_comm_infinite {T : Type} [DecidableEq T] (C : CurveOps T)
    {P Q : Point T} (h : P.is_infinite = true ∨ Q.is_infinite = true) :
    Curve.add C P Q = Curve.add C Q P := by
  by_cases hP : P.is_infinite = true
  · by_cases hQ : Q.is_infinite = true
    · have h1 := Point.is_infinite_iff.mp hP
      have h2 := Point.is_infinite_iff.mp hQ
      have : P = Q := by
        rcases P with ⟨px, py⟩; rcases Q with ⟨qx, qy⟩; simp_all
      rw [this]
    · unfold Curve.add
      rw [if_pos hP, if_neg hQ, if_pos hP]
  · by_cases hQ : Q.is_infinite = true
    · unfold Curve.add
      rw [if_neg hP, if_pos hQ, if_pos hQ]
    · rcases h with h | h
      · exact absurd h hP
      · exact absurd h hQ

namespace GF2NotSupersingularCurve

variable {T : Type} [DecidableEq T]

lemma ns_ops_first_case (C : GF2Curve T) : (ops C).first_case = first_case C := rfl

lemma ns_ops_second_case (C : GF2Curve T) : (ops C).second_case = second_case C := rfl

lemma ns_ops_third_case (C : GF2Curve T) : (ops C).third_case = third_case C := rfl

lemma ns_ops_additive_point (C : GF2Curve T) :
    (ops C).additive_point = additive_point C := rfl

lemma ns_ops_normalize (C : GF2Curve T) :
    (ops C).normalize = C.F.normalize_element := rfl

lemma ns_dispatch_junk {C : GF2Curve T} {P Q : Point T}
    (hjunk : P.x = none ∧ P.y ≠ none ∨ P.x ≠ none ∧ P.y = none ∨
             Q.x = none ∧ Q.y ≠ none ∨ Q.x ≠ none ∧ Q.y = none) :
    Curve.dispatch (ops C) P Q = .error .calculationError := by
  unfold Curve.dispatch
  rcases P with ⟨px, py⟩
  rcases Q with ⟨qx, qy⟩
  rcases px with _ | x1 <;> rcases py with _ | y1 <;>
    rcases qx with _ | x2 <;> rcases qy with _ | y2 <;>
    simp only [ns_ops_first_case, ns_ops_second_case, ns_ops_third_case] <;>
    split_ifs <;>
    simp_all [first_case, second_case, third_case]

/-- Commutativity of non-supersingular binary addition on full points. -/
lemma ns_add_comm_full {C : GF2Curve T} (L : GF2Laws C.F) (x1 y1 x2 y2 : T) :
    add C ⟨some x1, some y1⟩ ⟨some x2, some y2⟩ =
      add C ⟨some x2, some y2⟩ ⟨some x1, some y1⟩ := by
  show Curve.add (ops C) _ _ = Curve.add (ops C) _ _
  rw [Curve.add_eq_dispatch (ops C)
        (Point.full_not_infinite x1 y1) (Point.full_not_infinite x2 y2),
      Curve.add_eq_dispatch (ops C)
        (Point.full_not_infinite x2 y2) (Point.full_not_infinite x1 y1),
      Curve.dispatch_full, Curve.dispatch_full]
  by_cases hx : x1 = x2
  · subst hx
    by_cases hy : y1 = y2
    · subst hy; rfl
    · rw [if_neg (by simp : ¬ x1 ≠ x1), if_neg (by simp : ¬ x1 ≠ x1),
          if_pos hy, if_pos (Ne.symm hy)]
      by_cases hc : C.F.modulus y2 = C.F.modulus (C.F.add (C.F.mul C.a x1) y1)
      · have h1 : (ops C).second_case ⟨some x1, some y1⟩ ⟨some x1, some y2⟩ =
            .error .infinitePoint := by
          rw [ns_ops_second_case]
          simp only [second_case]; rw [if_pos hc]
        have h2 : (ops C).second_case ⟨some x1, some y2⟩ ⟨some x1, some y1⟩ =
            .error .infinitePoint := by
          rw [ns_ops_second_case]
          simp only [second_case]; rw [if_pos (L.flip (C.F.mul C.a x1) y1 y2 hc)]
        rw [h1, h2]
      · have h1 : (ops C).second_case ⟨some x1, some y1⟩ ⟨some x1, some y2⟩ =
            .error .calculationError := by
          rw [ns_ops_second_case]
          simp only [second_case]; rw [if_neg hc]
        have h2 : (ops C).second_case ⟨some x1, some y2⟩ ⟨some x1, some y1⟩ =
            .error .calculationError := by
          rw [ns_ops_second_case]
          simp only [second_case]
          rw [if_neg (fun hcc => hc (L.flip (C.F.mul C.a x1) y2 y1 hcc))]
        rw [h1, h2]
  · rw [if_pos hx, if_pos (Ne.symm hx)]
    rcases hz : C.F.invert (C.F.add x1 x2) with e | u
    · have h1 : (ops C).first_case ⟨some x1, some y1⟩ ⟨some x2, some y2⟩ =
          .error e := by
        rw [ns_ops_first_case]
        simp only [first_case]; rw [hz]; rfl
      have h2 : (ops C).first_case ⟨some x2, some y2⟩ ⟨some x1, some y1⟩ =
          .error e := by
        rw [ns_ops_first_case]
        simp only [first_case]; rw [L.add_comm x2 x1, hz]; rfl
      rw [h1, h2]
      cases e <;> rfl
    · have h1 : (ops C).first_case ⟨some x1, some y1⟩ ⟨some x2, some y2⟩ =
          .ok (C.F.modulus (C.F.mul (C.F.add y1 y2) u)) := by
        rw [ns_ops_first_case]
        simp only [first_case]; rw [hz]; rfl
      have h2 : (ops C).first_case ⟨some x2, some y2⟩ ⟨some x1, some y1⟩ =
          .ok (C.F.modulus (C.F.mul (C.F.add y1 y2) u)) := by
        rw [ns_ops_first_case]
        simp only [first_case]; rw [L.add_comm x2 x1, L.add_comm y2 y1, hz]; rfl
      rw [h1, h2]
      haveI : Std.Associative C.F.add := ⟨L.add_assoc⟩
      haveI : Std.Commutative C.F.add := ⟨L.add_comm⟩
      simp only [ns_ops_additive_point, ns_ops_normalize, additive_point, Option.map_some']
      have hk : C.F.modulus
          (C.F.normalize_element (C.F.modulus (C.F.mul (C.F.add y1 y2) u))) =
          C.F.modulus (C.F.mul (C.F.add y1 y2) u) := by
        rw [L.mod_norm, L.mod_mod]
      set k : T := C.F.normalize_element (C.F.modulus (C.F.mul (C.F.add y1 y2) u)) with hkdef
      have hx3 : C.F.modulus (C.F.add (C.F.add (C.F.add
            (C.F.add (C.F.mul k k) (C.F.mul C.a k)) C.b) x2) x1) =
          C.F.modulus (C.F.add (C.F.add (C.F.add
            (C.F.add (C.F.mul k k) (C.F.mul C.a k)) C.b) x1) x2) := by
        congr 1
        ac_rfl
      rw [hx3]
      congr 2
      set x3 : T := C.F.modulus (C.F.add (C.F.add (C.F.add
        (C.F.add (C.F.mul k k) (C.F.mul C.a k)) C.b) x1) x2) with hx3def
      have hy3 : C.F.modulus (C.F.add y1 (C.F.mul k (C.F.add x3 x1))) =
          C.F.modulus (C.F.add y2 (C.F.mul k (C.F.add x3 x2))) :=
        L.y3_eq x1 y1 x2 y2 u k x3 hk hz
      congr 1
      apply L.norm_congr
      rw [L.mod_mod, L.mod_mod]
      exact L.meq_add rfl (by rw [L.mod_mod, L.mod_mod]; exact hy3)

/-- Commutativity of non-supersingular binary addition. -/
lemma ns_add_comm_pts {C : GF2Curve T} (L : GF2Laws C.F) (P Q : Point T) :
    add C P Q = add C Q P := by
  by_cases hPinf : P.is_infinite = true
  · exact Curve.add_comm_infinite (ops C) (Or.inl hPinf)
  by_cases hQinf : Q.is_infinite = true
  · exact Curve.add_comm_infinite (ops C) (Or.inr hQinf)
  show Curve.add (ops C) P Q = Curve.add (ops C) Q P
  rw [Curve.add_eq_dispatch (ops C) hPinf hQinf,
      Curve.add_eq_dispatch (ops C) hQinf hPinf]
  rcases hPx : P.x with _ | x1
  · rcases hPy : P.y with _ | y1
    · exact absurd (Point.is_infinite_iff.mpr ⟨hPx, hPy⟩) hPinf
    · rw [ns_dispatch_junk (by simp [hPx, hPy]),
          ns_dispatch_junk (Or.inr (Or.inr (Or.inl (by simp [hPx, hPy]))))]
  · rcases hPy : P.y with _ | y1
    · rw [ns_dispatch_junk (Or.inr (Or.inl (by simp [hPx, hPy]))),
          ns_dispatch_junk (Or.inr (Or.inr (Or.inr (by simp [hPx, hPy]))))]
    · rcases hQx : Q.x with _ | x2
      · rcases hQy : Q.y with _ | y2
        · exact absurd (Point.is_infinite_iff.mpr ⟨hQx, hQy⟩) hQinf
        · rw [ns_dispatch_junk (Or.inr (Or.inr (Or.inl (by simp [hQx, hQy])))),
              ns_dispatch_junk (by simp [hQx, hQy])]
      · rcases hQy : Q.y with _ | y2
        · rw [ns_dispatch_junk (Or.inr (Or.inr (Or.inr (by simp [hQx, hQy])))),
              ns_dispatch_junk (Or.inr (Or.inl (by simp [hQx, hQy])))]
        · obtain ⟨rfl⟩ : P = ⟨some x1, some y1⟩ := by
            rcases P with ⟨px, py⟩; simp_all
          obtain ⟨rfl⟩ : Q = ⟨some x2, some y2⟩ := by
            rcases Q with ⟨qx, qy⟩; simp_all
          exact ns_add_comm_full L x1 y1 x2 y2

end GF2NotSupersingularCurve

namespace GF2SupersingularCurve

variable {T : Type} [DecidableEq T]

lemma ss_ops_first_case (C : GF2Curve T) : (ops C).first_case = first_case C := rfl

lemma ss_ops_second_case (C : GF2Curve T) : (ops C).second_case = second_case C := rfl

lemma ss_ops_third_case (C : GF2Curve T) : (ops C).third_case = third_case C := rfl

lemma ss_ops_additive_point (C : GF2Curve T) :
    (ops C).additive_point = additive_point C := rfl

lemma ss_ops_normalize (C : GF2Curve T) :
    (ops C).normalize = C.F.normalize_element := rfl

lemma ss_dispatch_junk {C : GF2Curve T} {P Q : Point T}
    (hjunk : P.x = none ∧ P.y ≠ none ∨ P.x ≠ none ∧ P.y = none ∨
             Q.x = none ∧ Q.y ≠ none ∨ Q.x ≠ none ∧ Q.y = none) :
    Curve.dispatch (ops C) P Q = .error .calculationError := by
  unfold Curve.dispatch
  rcases P with ⟨px, py⟩
  rcases Q with ⟨qx, qy⟩
  rcases px with _ | x1 <;> rcases py with _ | y1 <;>
    rcases qx with _ | x2 <;> rcases qy with _ | y2 <;>
    simp only [ss_ops_first_case, ss_ops_second_case, ss_ops_third_case] <;>
    split_ifs <;>
    simp_all [first_case, second_case, third_case]

/-- Commutativity of supersingular binary addition on full points. -/
lemma ss_add_comm_full {C : GF2Curve T} (L : GF2Laws C.F) (x1 y1 x2 y2 : T) :
    add C ⟨some x1, some y1⟩ ⟨some x2, some y2⟩ =
      add C ⟨some x2, some y2⟩ ⟨some x1, some y1⟩ := by
  show Curve.add (ops C) _ _ = Curve.add (ops C) _ _
  rw [Curve.add_eq_dispatch (ops C)
        (Point.full_not_infinite x1 y1) (Point.full_not_infinite x2 y2),
      Curve.add_eq_dispatch (ops C)
        (Point.full_not_infinite x2 y2) (Point.full_not_infinite x1 y1),
      Curve.dispatch_full, Curve.dispatch_full]
  by_cases hx : x1 = x2
  · subst hx
    by_cases hy : y1 = y2
    · subst hy; rfl
    · rw [if_neg (by simp : ¬ x1 ≠ x1), if_neg (by simp : ¬ x1 ≠ x1),
          if_pos hy, if_pos (Ne.symm hy)]
      by_cases hc : C.F.modulus y2 = C.F.modulus (C.F.add C.a y1)
      · have h1 : (ops C).second_case ⟨some x1, some y1⟩ ⟨some x1, some y2⟩ =
            .error .infinitePoint := by
          rw [ss_ops_second_case]
          simp only [second_case]; rw [if_pos hc]
        have h2 : (ops C).second_case ⟨some x1, some y2⟩ ⟨some x1, some y1⟩ =
            .error .infinitePoint := by
          rw [ss_ops_second_case]
          simp only [second_case]; rw [if_pos (L.flip C.a y1 y2 hc)]
        rw [h1, h2]
      · have h1 : (ops C).second_case ⟨some x1, some y1⟩ ⟨some x1, some y2⟩ =
            .error .calculationError := by
          rw [ss_ops_second_case]
          simp only [second_case]; rw [if_neg hc]
        have h2 : (ops C).second_case ⟨some x1, some y2⟩ ⟨some x1, some y1⟩ =
            .error .calculationError := by
          rw [ss_ops_second_case]
          simp only [second_case]
          rw [if_neg (fun hcc => hc (L.flip C.a y2 y1 hcc))]
        rw [h1, h2]
  · rw [if_pos hx, if_pos (Ne.symm hx)]
    rcases hz : C.F.invert (C.F.add x1 x2) with e | u
    · have h1 : (ops C).first_case ⟨some x1, some y1⟩ ⟨some x2, some y2⟩ =
          .error e := by
        rw [ss_ops_first_case]
        simp only [first_case]; rw [hz]; rfl
      have h2 : (ops C).first_case ⟨some x2, some y2⟩ ⟨some x1, some y1⟩ =
          .error e := by
        rw [ss_ops_first_case]
        simp only [first_case]; rw [L.add_comm x2 x1, hz]; rfl
      rw [h1, h2]
      cases e <;> rfl
    · have h1 : (ops C).first_case ⟨some x1, some y1⟩ ⟨some x2, some y2⟩ =
          .ok (C.F.modulus (C.F.mul (C.F.add y1 y2) u)) := by
        rw [ss_ops_first_case]
        simp only [first_case]; rw [hz]; rfl
      have h2 : (ops C).first_case ⟨some x2, some y2⟩ ⟨some x1, some y1⟩ =
          .ok (C.F.modulus (C.F.mul (C.F.add y1 y2) u)) := by
        rw [ss_ops_first_case]
        simp only [first_case]; rw [L.add_comm x2 x1, L.add_comm y2 y1, hz]; rfl
      rw [h1, h2]
      haveI : Std.Associative C.F.add := ⟨L.add_assoc⟩
      haveI : Std.Commutative C.F.add := ⟨L.add_comm⟩
      simp only [ss_ops_additive_point, ss_ops_normalize, additive_point, Option.map_some']
      have hk : C.F.modulus
          (C.F.normalize_element (C.F.modulus (C.F.mul (C.F.add y1 y2) u))) =
          C.F.modulus (C.F.mul (C.F.add y1 y2) u) := by
        rw [L.mod_norm, L.mod_mod]
      set k : T := C.F.normalize_element (C.F.modulus (C.F.mul (C.F.add y1 y2) u)) with hkdef
      have hx3 : C.F.modulus (C.F.add (C.F.add (C.F.mul k k) x2) x1) =
          C.F.modulus (C.F.add (C.F.add (C.F.mul k k) x1) x2) := by
        congr 1
        ac_rfl
      rw [hx3]
      congr 2
      set x3 : T := C.F.modulus (C.F.add (C.F.add (C.F.mul k k) x1) x2) with hx3def
      have hy3 : C.F.modulus (C.F.add y1 (C.F.mul k (C.F.add x3 x1))) =
          C.F.modulus (C.F.add y2 (C.F.mul k (C.F.add x3 x2))) :=
        L.y3_eq x1 y1 x2 y2 u k x3 hk hz
      congr 1
      apply L.norm_congr
      rw [L.mod_mod, L.mod_mod]
      exact L.meq_add rfl (by rw [L.mod_mod, L.mod_mod]; exact hy3)

/-- Commutativity of supersingular binary addition. -/
lemma ss_add_comm_pts {C : GF2Curve T} (L : GF2Laws C.F) (P Q : Point T) :
    add C P Q = add C Q P := by
  by_cases hPinf : P.is_infinite = true
  · exact Curve.add_comm_infinite (ops C) (Or.inl hPinf)
  by_cases hQinf : Q.is_infinite = true
  · exact Curve.add_comm_infinite (ops C) (Or.inr hQinf)
  show Curve.add (ops C) P Q = Curve.add (ops C) Q P
  rw [Curve.add_eq_dispatch (ops C) hPinf hQinf,
      Curve.add_eq_dispatch (ops C) hQinf hPinf]
  rcases hPx : P.x with _ | x1
  · rcases hPy : P.y with _ | y1
    · exact absurd (Point.is_infinite_iff.mpr ⟨hPx, hPy⟩) hPinf
    · rw [ss_dispatch_junk (by simp [hPx, hPy]),
          ss_dispatch_junk (Or.inr (Or.inr (Or.inl (by simp [hPx, hPy]))))]
  · rcases hPy : P.y with _ | y1
    · rw [ss_dispatch_junk (Or.inr (Or.inl (by simp [hPx, hPy]))),
          ss_dispatch_junk (Or.inr (Or.inr (Or.inr (by simp [hPx, hPy]))))]
    · rcases hQx : Q.x with _ | x2
      · rcases hQy : Q.y with _ | y2
        · exact absurd (Point.is_infinite_iff.mpr ⟨hQx, hQy⟩) hQinf
        · rw [ss_dispatch_junk (Or.inr (Or.inr (Or.inl (by simp [hQx, hQy])))),
              ss_dispatch_junk (by simp [hQx, hQy])]
      · rcases hQy : Q.y with _ | y2
        · rw [ss_dispatch_junk (Or.inr (Or.inr (Or.inr (by simp [hQx, hQy])))),
              ss_dispatch_junk (Or.inr (Or.inl (by simp [hQx, hQy])))]
        · obtain ⟨rfl⟩ : P = ⟨some x1, some y1⟩ := by
            rcases P with ⟨px, py⟩; simp_all
          obtain ⟨rfl⟩ : Q = ⟨some x2, some y2⟩ := by
            rcases Q with ⟨qx, qy⟩; simp_all
          exact ss_add_comm_full L x1 y1 x2 y2

end GF2SupersingularCurve

/-! ### Remaining helper lemmas -/

section MoreHelpers

/-- The concrete GF(4) field instance satisfies the modelled field laws. -/
lemma gf4_laws : GF2Laws gf4 := by
  constructor <;> decide

lemma zinvert_of_dvd_fail {p : Nat} (hp : 2 ≤ p) {t : Int}
    (ht : t % (p : Int) = 0) : zinvert p t = .error .nonInvertible := by
  unfold zinvert
  rcases hf : (List.range p).find?
      (fun u : Nat => (t * (u : Int)) % (p : Int) == 1 % (p : Int)) with _ | v
  · rfl
  · exfalso
    have hpred := List.find?_some hf
    rw [beq_iff_eq] at hpred
    have h1 : (t * (v : Int)) % (p : Int) = 0 := by
      rw [Int.mul_emod, ht]
      simp
    have h2 : (1 : Int) % (p : Int) = 1 :=
      Int.emod_eq_of_lt (by norm_num) (by exact_mod_cast hp)
    rw [h1, h2] at hpred
    exact absurd hpred (by norm_num)

/-- Doubling a point whose doubled y-coordinate reduces to zero fails
with the field's non-invertible error. -/
lemma zp_double_2tors {C : ZpCurve} (hp : 2 ≤ C.p) {x y : Int}
    (hy : (2 * y) % (C.p : Int) = 0) :
    C.add ⟨some x, some y⟩ ⟨some x, some y⟩ = .error .nonInvertible := by
  show Curve.add C.ops _ _ = _
  rw [Curve.add_eq_dispatch C.ops
        (Point.full_not_infinite x y) (Point.full_not_infinite x y),
      Curve.dispatch_full,
      if_neg (by simp : ¬ x ≠ x), if_neg (by simp : ¬ y ≠ y)]
  have h3 : C.ops.third_case ⟨some x, some y⟩ ⟨some x, some y⟩ =
      .error .nonInvertible := by
    rw [ZpCurve.ops_third_case]
    simp only [ZpCurve.third_case]
    rw [zinvert_of_dvd_fail hp hy]; rfl
  rw [h3]

/-- A doubling error propagates out of `mul` for every positive scalar,
because the loop unconditionally doubles its addend on the first
iteration. -/
lemma Curve.mul_err_of_add_err {T : Type} [DecidableEq T] (C : CurveOps T)
    {P : Point T} {e : CurveErr} (h : Curve.add C P P = .error e)
    {n : Nat} (hn : 1 ≤ n) : Curve.mul C P n = .error e := by
  obtain ⟨m, rfl⟩ : ∃ m, n = m + 1 := ⟨n - 1, by omega⟩
  show Curve.mulAux C (m + 1) Point.infinity P (m + 1) = _
  unfold Curve.mulAux
  rw [if_neg (by omega : ¬ m + 1 = 0)]
  rcases hr : (if (m + 1) % 2 = 1 then Curve.add C Point.infinity P
      else .ok Point.infinity) with e' | r
  · exfalso
    by_cases hb : (m + 1) % 2 = 1
    · rw [if_pos hb, Curve.add_infinity_left] at hr; cases hr
    · rw [if_neg hb] at hr; cases hr
  · show (match Curve.add C P P with
      | .error e => (.error e : Except CurveErr (Point T))
      | .ok addend' => Curve.mulAux C m r addend' ((m + 1) / 2)) = _
    rw [h]

/-- On a prime field, two distinct canonical points sharing an
x-coordinate are reflections: their y-sum reduces to zero, so `add`
yields the identity. -/
lemma zp_vertical {C : ZpCurve} (hp : C.p.Prime) {x y1 y2 : Int}
    (h1 : C.is_on_curve ⟨some x, some y1⟩ = true)
    (h2 : C.is_on_curve ⟨some x, some y2⟩ = true)
    (hy1 : 0 ≤ y1) (hy1p : y1 < C.p) (hy2 : 0 ≤ y2) (hy2p : y2 < C.p)
    (hne : y1 ≠ y2) :
    C.add ⟨some x, some y1⟩ ⟨some x, some y2⟩ = .ok Point.infinity := by
  haveI := Fact.mk hp
  rw [is_on_curve_some_iff] at h1 h2
  have hsq : ((y1 : ZMod C.p) - (y2 : ZMod C.p)) * ((y1 : ZMod C.p) + (y2 : ZMod C.p)) = 0 := by
    linear_combination h1 - h2
  have hsum : (y1 : ZMod C.p) + (y2 : ZMod C.p) = 0 := by
    rcases mul_eq_zero.mp hsq with hd | hs
    · exfalso
      apply hne
      have hmod : zmodulus C.p y1 = zmodulus C.p y2 :=
        zmodulus_eq_iff.mpr (by linear_combination hd)
      rwa [show zmodulus C.p y1 = y1 from Int.emod_eq_of_lt hy1 (by exact_mod_cast hy1p),
        show zmodulus C.p y2 = y2 from Int.emod_eq_of_lt hy2 (by exact_mod_cast hy2p)] at hmod
    · exact hs
  have hv : zmodulus C.p (y1 + y2) = 0 := by
    have : zmodulus C.p (y1 + y2) = zmodulus C.p 0 :=
      zmodulus_eq_iff.mpr (by push_cast; linear_combination hsum)
    simpa [zmodulus] using this
  show Curve.add C.ops _ _ = _
  rw [Curve.add_eq_dispatch C.ops
        (Point.full_not_infinite x y1) (Point.full_not_infinite x y2),
      Curve.dispatch_full,
      if_neg (by simp : ¬ x ≠ x), if_pos hne]
  have hsec : C.ops.second_case ⟨some x, some y1⟩ ⟨some x, some y2⟩ =
      .error .infinitePoint := by
    rw [ZpCurve.ops_second_case]
    simp only [ZpCurve.second_case]
    rw [if_pos hv]
  rw [hsec]

/-- The order-search loop never surfaces the point-at-infinity signal. -/
lemma orderAux_ne_infinitePoint {C : ZpCurve} {P : Point Int} :
    ∀ fuel n, C.orderAux P fuel n ≠ .error .infinitePoint := by
  intro fuel
  induction fuel with
  | zero => intro n h; cases h
  | succ fuel ih =>
      intro n
      unfold ZpCurve.orderAux
      rcases hm : C.mul P n with e | v
      · have : e ≠ .infinitePoint := by
          intro he
          exact Curve.mul_ne_infinitePoint C.ops P n (he ▸ hm)
        show ¬ Except.error e = _
        simp [this]
      · show (if v ≠ Point.infinity ∧ n ≤ C.p then C.orderAux P fuel (n + 1)
            else if n > C.p then Except.error CurveErr.incorrectOrder
            else Except.ok n) ≠ _
        by_cases hc : v ≠ Point.infinity ∧ n ≤ C.p
        · rw [if_pos hc]; exact ih (n + 1)
        · rw [if_neg hc]
          by_cases hg : n > C.p
          · rw [if_pos hg]; simp
          · rw [if_neg hg]; simp

/-- The point-order search surfaces the point-at-infinity signal exactly
on the identity argument. -/
lemma point_order_err_inf_iff (C : ZpCurve) (P : Point Int) :
    C.point_order P = .error .infinitePoint ↔ P = Point.infinity := by
  constructor
  · intro h
    by_cases hP : P = Point.infinity
    · exact hP
    · exfalso
      unfold ZpCurve.point_order at h
      rw [if_neg hP] at h
      by_cases hoc : C.is_on_curve P = true
      · rw [hoc] at h
        simp only [Bool.not_true, if_false] at h
        · exact orderAux_ne_infinitePoint _ _ h
      · rw [if_pos (by simpa using hoc)] at h
        cases h
  · intro h
    subst h
    unfold ZpCurve.point_order
    rw [if_pos rfl]

/-- Membership in the brute-force enumeration. -/
lemma all_points_mem_iff (C : ZpCurve) (xi yi : Int) :
    (⟨some xi, some yi⟩ : Point Int) ∈ C.all_points ↔
      0 ≤ xi ∧ xi < C.p ∧ 0 ≤ yi ∧ yi < C.p ∧
        C.is_on_curve ⟨some xi, some yi⟩ = true := by
  unfold ZpCurve.all_points
  rw [List.mem_append]
  constructor
  · rintro (hmem | hmem)
    · rw [List.mem_flatMap] at hmem
      obtain ⟨x, hx, hmem⟩ := hmem
      rw [List.mem_flatMap] at hmem
      obtain ⟨y, hy, hmem⟩ := hmem
      rw [List.mem_range] at hx hy
      by_cases hoc : C.is_on_curve ⟨some (x : Int), some (y : Int)⟩ = true
      · rw [if_pos hoc, List.mem_singleton] at hmem
        rw [Point.mk.injEq, Option.some_inj, Option.some_inj] at hmem
        obtain ⟨hx1, hy1⟩ := hmem
        subst hx1; subst hy1
        refine ⟨by positivity, by exact_mod_cast hx, by positivity,
          by exact_mod_cast hy, hoc⟩
      · rw [if_neg hoc] at hmem
        cases hmem
    · rw [List.mem_singleton] at hmem
      cases hmem
  · rintro ⟨hx0, hxp, hy0, hyp, hoc⟩
    left
    rw [List.mem_flatMap]
    refine ⟨xi.toNat, List.mem_range.mpr (by omega), ?_⟩
    rw [List.mem_flatMap]
    refine ⟨yi.toNat, List.mem_range.mpr (by omega), ?_⟩
    rw [show ((xi.toNat : Int)) = xi from Int.toNat_of_nonneg hx0,
        show ((yi.toNat : Int)) = yi from Int.toNat_of_nonneg hy0,
        if_pos hoc]
    exact List.mem_singleton.mpr rfl

/-- The identity point closes the enumeration. -/
lemma all_points_getLast (C : ZpCurve) :
    C.all_points.getLast? = some Point.infinity := by
  unfold ZpCurve.all_points
  exact List.getLast?_concat _

end MoreHelpers

/-! ### The claims -/

/-- C1 (counterexample): on the non-supersingular binary curve over
GF(4) with `a = ω`, `b = ω`, the points `(1, ω)` and `(1, ω²)` both
satisfy the curve equation, are non-infinite, share their x-coordinate
and differ in y, yet `add` raises the calculation error instead of
returning the identity: the asymmetric case-2 check `Qy = a·Px + Py`
is not the vertical-line condition when `a ≠ 1`. -/
theorem C1_counterexample :
    GF2NotSupersingularCurve.on_curve (GF2Curve.mk gf4 2 2 0) ⟨some 1, some 2⟩ = true ∧
    GF2NotSupersingularCurve.on_curve (GF2Curve.mk gf4 2 2 0) ⟨some 1, some 3⟩ = true ∧
    (Point.mk (some (1 : Fin 4)) (some 2)).is_infinite = false ∧
    (Point.mk (some (1 : Fin 4)) (some 3)).is_infinite = false ∧
    (2 : Fin 4) ≠ 3 ∧
    GF2NotSupersingularCurve.add (GF2Curve.mk gf4 2 2 0)
      ⟨some 1, some 2⟩ ⟨some 1, some 3⟩ = .error .calculationError := by
  decide

/-- C1 (amended): for the prime-field variant with prime modulus and
canonically reduced y-coordinates, `add` between two on-curve points
with equal x and unequal y always yields `infinity()` and never raises
the calculation error. -/
theorem C1_vertical_infinity (C : ZpCurve) (x y1 y2 : Int)
    (hp : C.p.Prime)
    (h1 : C.is_on_curve ⟨some x, some y1⟩ = true)
    (h2 : C.is_on_curve ⟨some x, some y2⟩ = true)
    (hy1 : 0 ≤ y1) (hy1p : y1 < C.p) (hy2 : 0 ≤ y2) (hy2p : y2 < C.p)
    (hne : y1 ≠ y2) :
    C.add ⟨some x, some y1⟩ ⟨some x, some y2⟩ = .ok Point.infinity :=
  zp_vertical hp h1 h2 hy1 hy1p hy2 hy2p hne

theorem C1_witness :
    (ZpCurve.mk 5 0 1).add ⟨some 0, some 1⟩ ⟨some 0, some 4⟩ = .ok Point.infinity :=
  C1_vertical_infinity (ZpCurve.mk 5 0 1) 0 1 4 (by norm_num) (by decide) (by decide)
    (by norm_num) (by norm_num) (by norm_num) (by norm_num) (by norm_num)

/-- C2 (counterexample): on the non-supersingular binary curve over
GF(4) with `a = ω`, `b = ω`, the point `(1, ω)` satisfies the curve
equation but `add(P, P)` returns `(1, 0)`, which does not: the binary
doubling and additive formulas only agree with the curve equation for
`a = 1`, so closure fails for this variant. -/
theorem C2_counterexample :
    GF2NotSupersingularCurve.on_curve (GF2Curve.mk gf4 2 2 0) ⟨some 1, some 2⟩ = true ∧
    GF2NotSupersingularCurve.add (GF2Curve.mk gf4 2 2 0)
      ⟨some 1, some 2⟩ ⟨some 1, some 2⟩ = .ok ⟨some 1, some 0⟩ ∧
    GF2NotSupersingularCurve.on_curve (GF2Curve.mk gf4 2 2 0) ⟨some 1, some 0⟩ = false := by
  decide

/-- C2 (amended): for the prime-field variant, whenever `add(P, Q)`
(resp. `mul(P, n)`) returns a point and its point arguments satisfy
`is_on_curve`, the result satisfies `is_on_curve` as well. -/
theorem C2_zp_closure (C : ZpCurve) :
    (∀ P Q R, C.is_on_curve P = true → C.is_on_curve Q = true →
      C.add P Q = .ok R → C.is_on_curve R = true) ∧
    (∀ P n S, C.is_on_curve P = true →
      C.mul P n = .ok S → C.is_on_curve S = true) :=
  ⟨fun _ _ _ hP hQ h => zp_add_on_curve hP hQ h,
   fun _ _ _ hP h => zp_mul_on_curve hP h⟩

theorem C2_witness :
    (ZpCurve.mk 17 2 2).is_on_curve ⟨some 6, some 3⟩ = true ∧
    (ZpCurve.mk 17 2 2).is_on_curve ⟨some 10, some 6⟩ = true :=
  ⟨(C2_zp_closure (ZpCurve.mk 17 2 2)).1 ⟨some 5, some 1⟩ ⟨some 5, some 1⟩
      ⟨some 6, some 3⟩ (by decide) (by decide) (by decide),
   (C2_zp_closure (ZpCurve.mk 17 2 2)).2 ⟨some 5, some 1⟩ 3
      ⟨some 10, some 6⟩ (by decide) (by decide)⟩

/-- C3 (counterexample): `(0, 0)` lies on `y² = x³ + x mod 5`, but
`mul(P, 1)` does not return `P`: the loop body doubles the addend even
on the final iteration, and doubling a 2-torsion point raises the
field's non-invertible error. -/
theorem C3_counterexample :
    (ZpCurve.mk 5 1 0).is_on_curve ⟨some 0, some 0⟩ = true ∧
    (ZpCurve.mk 5 1 0).mul ⟨some 0, some 0⟩ 1 = .error .nonInvertible ∧
    (ZpCurve.mk 5 1 0).mul ⟨some 0, some 0⟩ 1 ≠ .ok ⟨some 0, some 0⟩ := by
  decide

/-- C3 (amended): for every curve variant, `mul(P, 0)` is `infinity()`;
and `mul(P, 1)` is `P` provided the unconditional doubling `add(P, P)`
of the first loop iteration does not raise. -/
theorem C3_scalar_identity {T : Type} [DecidableEq T] (C : CurveOps T) (P A : Point T) :
    Curve.mul C P 0 = .ok Point.infinity ∧
    (Curve.add C P P = .ok A → Curve.mul C P 1 = .ok P) :=
  ⟨Curve.mul_zero_eq C P, fun h => by rw [Curve.mul_one_eq, h]; rfl⟩

theorem C3_witness :
    Curve.mul (ZpCurve.mk 17 2 2).ops ⟨some 5, some 1⟩ 0 = .ok Point.infinity ∧
    Curve.mul (ZpCurve.mk 17 2 2).ops ⟨some 5, some 1⟩ 1 = .ok ⟨some 5, some 1⟩ :=
  ⟨(C3_scalar_identity (ZpCurve.mk 17 2 2).ops ⟨some 5, some 1⟩ ⟨some 6, some 3⟩).1,
   (C3_scalar_identity (ZpCurve.mk 17 2 2).ops ⟨some 5, some 1⟩ ⟨some 6, some 3⟩).2
     (by decide)⟩

/-- C4 (counterexample): on `y² = x³ + 1 mod 7` the non-canonical point
`(7, 1)` is on the curve and not infinite, `mul(P, 6)` is the identity
with `6` within the field-order bound, yet `point_order` neither
returns `6` nor fails with one of the documented errors: the loop's
`mul(P, 3)` raises the field's non-invertible error, which propagates. -/
theorem C4_counterexample :
    (⟨some 7, some 1⟩ : Point Int) ≠ Point.infinity ∧
    (ZpCurve.mk 7 0 1).is_on_curve ⟨some 7, some 1⟩ = true ∧
    (ZpCurve.mk 7 0 1).mul ⟨some 7, some 1⟩ 6 = .ok Point.infinity ∧
    6 ≤ (ZpCurve.mk 7 0 1).order ∧
    (ZpCurve.mk 7 0 1).point_order ⟨some 7, some 1⟩ = .error .nonInvertible := by
  decide

/-- C4 (amended): `point_order` fails with an infinite-point error on
the identity and a not-on-curve error off the curve; when it returns
`n`, then `2 ≤ n ≤ order`, `mul(P, n)` is the identity and no smaller
positive scalar reaches the identity; and when every `mul(P, j)` in the
search range returns a non-identity point (no field error preempting
the search), it fails with the order-not-found error.  Field errors
raised by an intermediate `mul` propagate instead. -/
theorem C4_point_order_spec (C : ZpCurve) (P : Point Int) :
    (P = Point.infinity → C.point_order P = .error .infinitePoint) ∧
    (P ≠ Point.infinity → C.is_on_curve P = false →
      C.point_order P = .error .notOnCurve) ∧
    (∀ n, C.point_order P = .ok n →
      2 ≤ n ∧ n ≤ C.order ∧ C.mul P n = .ok Point.infinity ∧
      ∀ k, 0 < k → k < n → C.mul P k ≠ .ok Point.infinity) ∧
    (1 ≤ C.p →
      (∀ j, 2 ≤ j → j ≤ C.order + 1 →
        ∃ v, C.mul P j = .ok v ∧ (j ≤ C.order → v ≠ Point.infinity)) →
      P ≠ Point.infinity → C.is_on_curve P = true →
      C.point_order P = .error .incorrectOrder) := by
  refine ⟨?_, ?_, ?_, ?_⟩
  · intro h
    subst h
    unfold ZpCurve.point_order
    rw [if_pos rfl]
  · intro hP hoc
    unfold ZpCurve.point_order
    rw [if_neg hP, hoc]
    simp
  · intro n h
    by_cases hP : P = Point.infinity
    · unfold ZpCurve.point_order at h
      rw [if_pos hP] at h; cases h
    by_cases hoc : C.is_on_curve P = true
    · rw [point_order_eq_orderAux hP hoc] at h
      obtain ⟨h2n, hnp, hmul, hforall⟩ := orderAux_ok_spec (C.p + 1) 2 n h
      refine ⟨h2n, hnp, hmul, ?_⟩
      intro k hk0 hkn
      by_cases hk1 : k = 1
      · subst hk1
        have h1 : C.mul P 1 = (Curve.add C.ops P P).map fun _ => P :=
          Curve.mul_one_eq C.ops P
        rw [h1]
        rcases hA : Curve.add C.ops P P with e | A
        · simp [Except.map]
        · simp only [Except.map]
          intro hc
          exact hP (by cases hc; rfl)
      · obtain ⟨v, hv, hvne⟩ := hforall k (by omega) hkn
        rw [hv]
        intro hc
        exact hvne (by cases hc; rfl)
    · exfalso
      unfold ZpCurve.point_order at h
      rw [if_neg hP, (by simpa using hoc : C.is_on_curve P = false)] at h
      simp at h
  · intro hp1 hyp hP hoc
    rw [point_order_eq_orderAux hP hoc]
    exact orderAux_exceeds (C.p + 1) 2 (by omega) (by norm_num) (by omega) hyp

theorem C4_witness :
    (ZpCurve.mk 5 0 1).point_order Point.infinity = .error .infinitePoint ∧
    (2 ≤ 3 ∧ 3 ≤ (ZpCurve.mk 7 0 1).order ∧
      (ZpCurve.mk 7 0 1).mul ⟨some 0, some 1⟩ 3 = .ok Point.infinity ∧
      ∀ k, 0 < k → k < 3 →
        (ZpCurve.mk 7 0 1).mul ⟨some 0, some 1⟩ k ≠ .ok Point.infinity) :=
  ⟨(C4_point_order_spec (ZpCurve.mk 5 0 1) Point.infinity).1 rfl,
   (C4_point_order_spec (ZpCurve.mk 7 0 1) ⟨some 0, some 1⟩).2.2.1 3 (by decide)⟩

/-- C5 (confirmed): addition is commutative for every variant — the
prime-field variant for every field order at least 1, and both
binary-field variants over every field collaborator satisfying the
modelled field laws.  Commutativity holds for every pair of points,
errors included. -/
theorem C5_add_comm :
    (∀ (C : ZpCurve), 1 ≤ C.p → ∀ P Q, C.add P Q = C.add Q P) ∧
    (∀ (T : Type) [DecidableEq T] (C : GF2Curve T), GF2Laws C.F →
      ∀ P Q, GF2NotSupersingularCurve.add C P Q =
        GF2NotSupersingularCurve.add C Q P) ∧
    (∀ (T : Type) [DecidableEq T] (C : GF2Curve T), GF2Laws C.F →
      ∀ P Q, GF2SupersingularCurve.add C P Q =
        GF2SupersingularCurve.add C Q P) :=
  ⟨fun _ hp P Q => zp_add_comm hp P Q,
   fun _ _ _ L P Q => GF2NotSupersingularCurve.ns_add_comm_pts L P Q,
   fun _ _ _ L P Q => GF2SupersingularCurve.ss_add_comm_pts L P Q⟩

theorem C5_witness :
    (ZpCurve.mk 17 2 2).add ⟨some 5, some 1⟩ ⟨some 6, some 3⟩ =
      (ZpCurve.mk 17 2 2).add ⟨some 6, some 3⟩ ⟨some 5, some 1⟩ ∧
    GF2NotSupersingularCurve.add (GF2Curve.mk gf4 2 2 0) ⟨some 0, some 3⟩ ⟨some 1, some 2⟩ =
      GF2NotSupersingularCurve.add (GF2Curve.mk gf4 2 2 0) ⟨some 1, some 2⟩ ⟨some 0, some 3⟩ ∧
    GF2SupersingularCurve.add (GF2Curve.mk gf4 1 1 1) ⟨some 0, some 1⟩ ⟨some 2, some 3⟩ =
      GF2SupersingularCurve.add (GF2Curve.mk gf4 1 1 1) ⟨some 2, some 3⟩ ⟨some 0, some 1⟩ :=
  ⟨C5_add_comm.1 (ZpCurve.mk 17 2 2) (by norm_num) _ _,
   C5_add_comm.2.1 (Fin 4) (GF2Curve.mk gf4 2 2 0) gf4_laws _ _,
   C5_add_comm.2.2 (Fin 4) (GF2Curve.mk gf4 1 1 1) gf4_laws _ _⟩

/-- C6 (counterexample): `point_order` on the identity point raises the
point-at-infinity signal (`InfinitePoint`) to the caller, so a public
operation does let the signal propagate. -/
theorem C6_counterexample :
    (ZpCurve.mk 5 0 1).point_order Point.infinity = .error .infinitePoint := by
  decide

/-- C6 (amended): the point-at-infinity signal raised by a coefficient
strategy is always caught inside `add` — `add` and `mul` can never
surface it, for any variant and any input — but `point_order` itself
raises `InfinitePoint` directly (not via a strategy), exactly when its
argument is the identity point. -/
theorem C6_infinitePoint_policy :
    (∀ (T : Type) [DecidableEq T] (C : CurveOps T) (P Q : Point T),
      Curve.add C P Q ≠ .error .infinitePoint) ∧
    (∀ (T : Type) [DecidableEq T] (C : CurveOps T) (P : Point T) (n : Nat),
      Curve.mul C P n ≠ .error .infinitePoint) ∧
    (∀ (C : ZpCurve) (P : Point Int),
      C.point_order P = .error .infinitePoint ↔ P = Point.infinity) :=
  ⟨fun _ _ C P Q => Curve.add_ne_infinitePoint C P Q,
   fun _ _ C P n => Curve.mul_ne_infinitePoint C P n,
   fun C P => point_order_err_inf_iff C P⟩

theorem C6_witness :
    (ZpCurve.mk 5 0 1).point_order Point.infinity = .error .infinitePoint ∧
    Curve.add (ZpCurve.mk 5 0 1).ops ⟨some 0, some 1⟩ ⟨some 0, some 4⟩ ≠
      .error .infinitePoint :=
  ⟨(C6_infinitePoint_policy.2.2 (ZpCurve.mk 5 0 1) Point.infinity).mpr rfl,
   C6_infinitePoint_policy.1 Int (ZpCurve.mk 5 0 1).ops ⟨some 0, some 1⟩ ⟨some 0, some 4⟩⟩

/-- C7 (confirmed): on `y² = x³ + 2x + 2 mod 17`, the point `(5, 1)`
satisfies `is_on_curve`, and `add((5,1), (5,1))` returns the doubled
point `(6, 3)`. -/
theorem C7_textbook_example :
    (ZpCurve.mk 17 2 2).is_on_curve ⟨some 5, some 1⟩ = true ∧
    (ZpCurve.mk 17 2 2).add ⟨some 5, some 1⟩ ⟨some 5, some 1⟩ = .ok ⟨some 6, some 3⟩ := by
  decide

/-- C8 (confirmed): supersingular doubling of a non-infinite point
raises the calculation error whenever the coefficient `a` reduces to
the zero element; otherwise the doubling coefficient is
`(Px·Px + b) · invert(a)`, reduced through the field. -/
theorem C8_ss_doubling {T : Type} [DecidableEq T] (C : GF2Curve T) (x y : T) :
    (C.F.modulus C.a = C.F.zero →
      GF2SupersingularCurve.add C ⟨some x, some y⟩ ⟨some x, some y⟩ =
        .error .calculationError) ∧
    (∀ u, C.F.modulus C.a ≠ C.F.zero → C.F.invert C.a = .ok u →
      GF2SupersingularCurve.third_case C ⟨some x, some y⟩ ⟨some x, some y⟩ =
        .ok (C.F.modulus (C.F.mul (C.F.add (C.F.mul x x) C.b) u))) := by
  constructor
  · intro ha
    show Curve.add (GF2SupersingularCurve.ops C) _ _ = _
    rw [Curve.add_eq_dispatch (GF2SupersingularCurve.ops C)
          (Point.full_not_infinite x y) (Point.full_not_infinite x y),
        Curve.dispatch_full,
        if_neg (by simp : ¬ x ≠ x), if_neg (by simp : ¬ y ≠ y)]
    have h3 : (GF2SupersingularCurve.ops C).third_case ⟨some x, some y⟩ ⟨some x, some y⟩ =
        .error .calculationError := by
      rw [GF2SupersingularCurve.ss_ops_third_case]
      simp only [GF2SupersingularCurve.third_case]
      rw [if_pos ha]
    rw [h3]
  · intro u ha hu
    simp only [GF2SupersingularCurve.third_case]
    rw [if_neg ha, hu]
    rfl

theorem C8_witness :
    GF2SupersingularCurve.add (GF2Curve.mk gf4 0 1 0) ⟨some 1, some 1⟩ ⟨some 1, some 1⟩ =
      .error .calculationError ∧
    GF2SupersingularCurve.third_case (GF2Curve.mk gf4 2 1 0) ⟨some 1, some 1⟩ ⟨some 1, some 1⟩ =
      .ok 0 :=
  ⟨(C8_ss_doubling (GF2Curve.mk gf4 0 1 0) 1 1).1 (by decide),
   (C8_ss_doubling (GF2Curve.mk gf4 2 1 0) 1 1).2 3 (by decide) (by decide)⟩

/-- C9 (confirmed): the enumeration contains exactly the coordinate
pairs `(x, y)` with `0 ≤ x, y < p` satisfying `is_on_curve`, contains
the identity point, and its final element is the identity point; being
a pure value, re-iterating it yields the same elements. -/
theorem C9_all_points_spec (C : ZpCurve) :
    (∀ xi yi : Int, ((⟨some xi, some yi⟩ : Point Int) ∈ C.all_points ↔
      0 ≤ xi ∧ xi < C.p ∧ 0 ≤ yi ∧ yi < C.p ∧
        C.is_on_curve ⟨some xi, some yi⟩ = true)) ∧
    Point.infinity ∈ C.all_points ∧
    C.all_points.getLast? = some Point.infinity :=
  ⟨fun xi yi => all_points_mem_iff C xi yi,
   by unfold ZpCurve.all_points; simp,
   all_points_getLast C⟩

theorem C9_witness :
    (⟨some 5, some 1⟩ : Point Int) ∈ (ZpCurve.mk 17 2 2).all_points :=
  ((C9_all_points_spec (ZpCurve.mk 17 2 2)).1 5 1).mpr (by decide)

/-- C10 (confirmed): for the prime-field variant, doubling a point
whose `2·Py` reduces to zero raises the field's non-invertible error
rather than returning the identity, and `mul(P, n)` raises for every
`n ≥ 1`, because the loop unconditionally doubles its addend. -/
theorem C10_two_torsion_errors (C : ZpCurve) (x y : Int) (n : Nat)
    (hp : 2 ≤ C.p) (hy : (2 * y) % (C.p : Int) = 0)
    (_hoc : C.is_on_curve ⟨some x, some y⟩ = true) (hn : 1 ≤ n) :
    C.add ⟨some x, some y⟩ ⟨some x, some y⟩ = .error .nonInvertible ∧
    C.mul ⟨some x, some y⟩ n = .error .nonInvertible := by
  have hadd : Curve.add C.ops ⟨some x, some y⟩ ⟨some x, some y⟩ = .error .nonInvertible :=
    zp_double_2tors hp hy
  exact ⟨hadd, Curve.mul_err_of_add_err C.ops hadd hn⟩

theorem C10_witness :
    (ZpCurve.mk 5 1 0).add ⟨some 0, some 0⟩ ⟨some 0, some 0⟩ = .error .nonInvertible ∧
    (ZpCurve.mk 5 1 0).mul ⟨some 0, some 0⟩ 1 = .error .nonInvertible :=
  C10_two_torsion_errors (ZpCurve.mk 5 1 0) 0 0 1 (by norm_num) (by decide)
    (by decide) (by norm_num)






end EC
